import Mathlib

/-!
Verification development for the `treez` library (`treez/functional_api.py`,
`treez/object_api.py`).

Trees are stored as Python dictionaries mapping nodes to parents
(`Parenthood`), nodes to child lists (`Childhood`) and nodes to property
values (`NodeProperty`).  We embed Python dicts as association lists kept in
insertion order (new keys are appended, updates keep the key's position),
which matches CPython's dict iteration-order semantics used by the code.

Nodes are natural numbers.  Edge weights and numeric node properties are
integers.  Loops of the Python source (`while root in parents: ...`) are
embedded with an explicit fuel argument sized so that it never runs out on
acyclic inputs; a `none` result marks an input on which the Python loop
would not terminate.
-/

/-- A node of a tree: an opaque identifier, modelled as a natural number. -/
abbrev Node : Type := Nat

/-- An edge of the input graph: a pair of nodes, as in the Python tuples. -/
abbrev Edge : Type := Nat × Nat

/-- `Parenthood`: a Python dict from node to parent node. -/
abbrev Parenthood : Type := List (Nat × Nat)

/-- `Childhood`: a Python dict from node to the ordered list of children. -/
abbrev Childhood : Type := List (Nat × List Nat)

/-- A numerical node property (Python dict node -> number). -/
abbrev NumericalNodeProperty : Type := List (Nat × Int)

/-- A binary node property (Python dict node -> bool). -/
abbrev BinaryNodeProperty : Type := List (Nat × Bool)

/-- The exception taxonomy of `treez.util` used by `functional_api`. -/
inductive TreezError : Type where
  | unrelatedNode
  | unreachableAncestor
  | unknownNodeProperty
  | invalidNodeProps
  | invalidEdgeProps
  | pyTypeError
deriving DecidableEq

/-- Dict lookup: `d[k]` / `k in d`.  First matching key wins (keys are unique
in a Python dict; our insert maintains that). -/
def dlookup {α : Type} : List (Nat × α) → Nat → Option α
  | [], _ => none
  | (k, v) :: rest, key => if k = key then some v else dlookup rest key

/-- Dict store `d[k] = v`: updates the value in place if the key exists,
otherwise appends the new binding (CPython insertion-order semantics). -/
def dinsert {α : Type} (d : List (Nat × α)) (key : Nat) (val : α) : List (Nat × α) :=
  if (dlookup d key).isSome then
    d.map (fun p => if p.1 = key then (key, val) else p)
  else d ++ [(key, val)]

/-- The keys of a dict, in insertion order. -/
def dkeys {α : Type} (d : List (Nat × α)) : List Nat := d.map Prod.fst

theorem dlookup_isSome_iff_mem_dkeys {α : Type} (d : List (Nat × α)) (k : Nat) :
    (dlookup d k).isSome ↔ k ∈ dkeys d := by
  induction d with
  | nil => simp [dlookup, dkeys]
  | cons p rest ih =>
    obtain ⟨k', v⟩ := p
    by_cases h : k' = k
    · subst h; simp [dlookup, dkeys]
    · have h' : ¬k = k' := fun hk => h hk.symm
      simp [dlookup, dkeys, h, h', ih]

theorem dlookup_eq_none_iff_not_mem_dkeys {α : Type} (d : List (Nat × α)) (k : Nat) :
    dlookup d k = none ↔ k ∉ dkeys d := by
  rw [← dlookup_isSome_iff_mem_dkeys]
  cases dlookup d k <;> simp

theorem dlookup_mem {α : Type} {d : List (Nat × α)} {k : Nat} {v : α}
    (h : dlookup d k = some v) : (k, v) ∈ d := by
  induction d with
  | nil => simp [dlookup] at h
  | cons p rest ih =>
    obtain ⟨k', v'⟩ := p
    by_cases hk : k' = k
    · subst hk
      simp [dlookup] at h
      subst h; exact List.mem_cons_self _ _
    · simp [dlookup, hk] at h
      exact List.mem_cons_of_mem _ (ih h)

theorem dlookup_append_left {α : Type} {d : List (Nat × α)} {k : Nat} {v : α}
    (ext : List (Nat × α)) (h : dlookup d k = some v) :
    dlookup (d ++ ext) k = some v := by
  induction d with
  | nil => simp [dlookup] at h
  | cons p rest ih =>
    obtain ⟨k', v'⟩ := p
    by_cases hk : k' = k
    · subst hk; simp_all [dlookup]
    · simp [dlookup, hk] at h ⊢
      exact ih h

theorem dlookup_append_right {α : Type} {d : List (Nat × α)} {k : Nat}
    (ext : List (Nat × α)) (h : dlookup d k = none) :
    dlookup (d ++ ext) k = dlookup ext k := by
  induction d with
  | nil => rfl
  | cons p rest ih =>
    obtain ⟨k', v'⟩ := p
    by_cases hk : k' = k
    · subst hk; simp [dlookup] at h
    · simp [dlookup, hk] at h ⊢
      exact ih h

theorem dinsert_of_not_mem {α : Type} {d : List (Nat × α)} {k : Nat}
    (h : dlookup d k = none) (v : α) : dinsert d k v = d ++ [(k, v)] := by
  simp [dinsert, h]

/-! ### `get_root` (functional_api.get_root with an explicit node)

```python
if node not in parents: return node
root = node
while root in parents: root = parents[root]
return root
```
The `node is None` entry branch (pick the first key of the dict) is embedded
directly in `cut_on_property`, its only caller in the claims. -/

def getRootAux : Nat → Parenthood → Nat → Option Nat
  | 0, _, _ => none
  | fuel + 1, parents, node =>
    match dlookup parents node with
    | none => some node
    | some p => getRootAux fuel parents p

/-- `get_root(parents, node)`: follow parent links until a node with no entry
in `parents` is reached.  `none` marks divergence (a cyclic parenthood). -/
def get_root (parents : Parenthood) (node : Nat) : Option Nat :=
  getRootAux (parents.length + 1) parents node

/-! ### Root chains

`RPath parents node l` holds when `l` is the full chain
`[node, parent(node), ..., root]` that the Python while loops walk. -/

inductive RPath (parents : Parenthood) : Nat → List Nat → Prop
  | nil {x : Nat} : dlookup parents x = none → RPath parents x [x]
  | cons {x p : Nat} {l : List Nat} :
      dlookup parents x = some p → RPath parents p l → RPath parents x (x :: l)

theorem RPath.head_shape {parents : Parenthood} {x : Nat} {l : List Nat}
    (h : RPath parents x l) : ∃ t, l = x :: t := by
  cases h with
  | nil _ => exact ⟨[], rfl⟩
  | cons _ _ => exact ⟨_, rfl⟩

theorem RPath.ne_nil {parents : Parenthood} {x : Nat} {l : List Nat}
    (h : RPath parents x l) : l ≠ [] := by
  obtain ⟨t, rfl⟩ := h.head_shape; simp

theorem RPath.unique {parents : Parenthood} {x : Nat} {l₁ l₂ : List Nat}
    (h₁ : RPath parents x l₁) (h₂ : RPath parents x l₂) : l₁ = l₂ := by
  induction h₁ generalizing l₂ with
  | nil hx => cases h₂ with
    | nil _ => rfl
    | cons hp _ => rw [hx] at hp; cases hp
  | cons hx _ ih =>
    cases h₂ with
    | nil hy => rw [hy] at hx; cases hx
    | cons hy hrest =>
      rw [hx] at hy
      cases hy
      rw [ih hrest]

theorem RPath.cons_inv {parents : Parenthood} {x : Nat} {t : List Nat}
    (h : RPath parents x (x :: t)) (hne : t ≠ []) :
    ∃ p, dlookup parents x = some p ∧ RPath parents p t := by
  cases h with
  | nil hx => exact absurd rfl hne
  | cons hx hrest => exact ⟨_, hx, hrest⟩

/-- Every element of a root chain starts its own root chain (the suffix). -/
theorem RPath.mem_suffix {parents : Parenthood} {x y : Nat} {l : List Nat}
    (h : RPath parents x l) (hy : y ∈ l) :
    ∃ m, RPath parents y m ∧ m.length ≤ l.length ∧ m <:+ l := by
  induction h with
  | @nil x' hx =>
    simp at hy
    subst hy
    exact ⟨[y], RPath.nil hx, by simp, List.suffix_refl _⟩
  | @cons x' p l' hx hrest ih =>
    rcases List.mem_cons.mp hy with heq | hy'
    · subst heq
      exact ⟨_, RPath.cons hx hrest, le_refl _, List.suffix_refl _⟩
    · obtain ⟨m, hm, hlen, hsuf⟩ := ih hy'
      exact ⟨m, hm, Nat.le_succ_of_le hlen, hsuf.trans (List.suffix_cons _ _)⟩

theorem RPath.nodup {parents : Parenthood} {x : Nat} {l : List Nat}
    (h : RPath parents x l) : l.Nodup := by
  induction h with
  | nil _ => simp
  | @cons x' p l' hx hrest ih =>
    refine List.nodup_cons.mpr ⟨?_, ih⟩
    intro hx_mem
    obtain ⟨m, hm, hlen, hsuf⟩ := RPath.mem_suffix hrest hx_mem
    -- from x' we step to p, whose chain is l'; so the chain of x' is x' :: l'
    have hx'chain : RPath parents x' (x' :: l') := RPath.cons hx hrest
    have := RPath.unique hm hx'chain
    subst this
    simp at hlen

/-- All chain elements except the final root are keys of the parenthood. -/
theorem RPath.dropLast_keys {parents : Parenthood} {x : Nat} {l : List Nat}
    (h : RPath parents x l) : ∀ y ∈ l.dropLast, (dlookup parents y).isSome := by
  induction h with
  | nil _ => simp
  | @cons x' p l' hx hrest ih =>
    intro y hy
    have hl' : l' ≠ [] := hrest.ne_nil
    rw [List.dropLast_cons_of_ne_nil hl'] at hy
    rcases List.mem_cons.mp hy with rfl | hy'
    · simp [hx]
    · exact ih y hy'

theorem RPath.getLast_lookup {parents : Parenthood} {x : Nat} {l : List Nat}
    (h : RPath parents x l) (hne : l ≠ []) : dlookup parents (l.getLast hne) = none := by
  induction h with
  | nil hx => simpa using hx
  | @cons x' p l' hx hrest ih =>
    have hl' : l' ≠ [] := hrest.ne_nil
    rw [List.getLast_cons hl']
    exact ih hl'

/-- Elements of a root chain that are keys are pairwise distinct keys of the
dict, so the chain is at most one longer than the dict. -/
theorem RPath.length_le {parents : Parenthood} {x : Nat} {l : List Nat}
    (h : RPath parents x l) : l.length ≤ parents.length + 1 := by
  have hnd : l.dropLast.Nodup := List.Nodup.sublist (List.dropLast_sublist l) h.nodup
  have h1 : l.dropLast.toFinset.card = l.dropLast.length :=
    List.toFinset_card_of_nodup hnd
  have h2 : l.dropLast.toFinset ⊆ (dkeys parents).toFinset := by
    intro a ha
    rw [List.mem_toFinset] at ha ⊢
    exact (dlookup_isSome_iff_mem_dkeys _ _).mp (h.dropLast_keys a ha)
  have h4 := Finset.card_le_card h2
  have h3 : (dkeys parents).toFinset.card ≤ (dkeys parents).length :=
    (dkeys parents).toFinset_card_le
  have h5 : (dkeys parents).length = parents.length := by simp [dkeys]
  have hlen : l.dropLast.length + 1 = l.length := by
    cases l with
    | nil => exact absurd rfl h.ne_nil
    | cons a t => simp
  omega

/-- Running the fueled loop along an existing chain. -/
theorem getRootAux_of_rpath {parents : Parenthood} {x : Nat} {l : List Nat}
    (h : RPath parents x l) :
    ∀ fuel, l.length ≤ fuel → getRootAux fuel parents x = some (l.getLast h.ne_nil) := by
  induction h with
  | @nil x' hx =>
    intro fuel hfuel
    match fuel, hfuel with
    | fuel + 1, _ => simp [getRootAux, hx]
  | @cons x' p l' hx hrest ih =>
    intro fuel hfuel
    match fuel, hfuel with
    | fuel + 1, hfuel =>
      have hl : l'.length ≤ fuel := by simp at hfuel; omega
      simp only [getRootAux, hx]
      rw [ih fuel hl, List.getLast_cons hrest.ne_nil]

theorem rpath_of_getRootAux {fuel : Nat} {parents : Parenthood} {x r : Nat}
    (h : getRootAux fuel parents x = some r) :
    ∃ l, RPath parents x l ∧ ∃ hne : l ≠ [], l.getLast hne = r := by
  induction fuel generalizing x with
  | zero => simp [getRootAux] at h
  | succ fuel ih =>
    rw [getRootAux] at h
    cases hx : dlookup parents x with
    | none =>
      rw [hx] at h
      simp at h
      subst h
      exact ⟨[x], RPath.nil hx, by simp, rfl⟩
    | some p =>
      rw [hx] at h
      obtain ⟨l, hl, hne, hlast⟩ := ih h
      refine ⟨x :: l, RPath.cons hx hl, by simp, ?_⟩
      rw [List.getLast_cons hne]
      exact hlast

/-- `get_root` succeeds exactly on nodes with a finite chain, returning its
last element (the root). -/
theorem get_root_eq_some_iff {parents : Parenthood} {x r : Nat} :
    get_root parents x = some r ↔
      ∃ l, RPath parents x l ∧ ∃ hne : l ≠ [], l.getLast hne = r := by
  constructor
  · exact rpath_of_getRootAux
  · rintro ⟨l, hl, hne, hlast⟩
    have h2 := getRootAux_of_rpath hl (parents.length + 1) hl.length_le
    subst hlast
    exact h2

/-- `RootIs parents x r`: the chain of `x` terminates and its root is `r`. -/
def RootIs (parents : Parenthood) (x r : Nat) : Prop :=
  ∃ l, RPath parents x l ∧ ∃ hne : l ≠ [], l.getLast hne = r

theorem get_root_eq_some_iff_rootIs {parents : Parenthood} {x r : Nat} :
    get_root parents x = some r ↔ RootIs parents x r :=
  get_root_eq_some_iff

theorem RootIs.uniqueRoot {parents : Parenthood} {x r₁ r₂ : Nat}
    (h₁ : RootIs parents x r₁) (h₂ : RootIs parents x r₂) : r₁ = r₂ := by
  obtain ⟨l₁, hl₁, hne₁, rfl⟩ := h₁
  obtain ⟨l₂, hl₂, hne₂, rfl⟩ := h₂
  have := RPath.unique hl₁ hl₂
  subst this
  rfl

theorem RootIs.not_key {parents : Parenthood} {x r : Nat}
    (h : RootIs parents x r) : dlookup parents r = none := by
  obtain ⟨l, hl, hne, rfl⟩ := h
  exact hl.getLast_lookup hne

theorem RootIs.self_of_not_key {parents : Parenthood} {x : Nat}
    (h : dlookup parents x = none) : RootIs parents x x :=
  ⟨[x], RPath.nil h, by simp, rfl⟩

/-- A ranking function decreasing along parent links guarantees every chain
terminates (the parenthood is acyclic). -/
theorem exists_rpath_of_ranking {parents : Parenthood} {r : Nat → Nat}
    (hr : ∀ x p, dlookup parents x = some p → r p < r x) (x : Nat) :
    ∃ l, RPath parents x l := by
  have H : ∀ n y, r y ≤ n → ∃ l, RPath parents y l := by
    intro n
    induction n with
    | zero =>
      intro y hy
      cases hyl : dlookup parents y with
      | none => exact ⟨[y], RPath.nil hyl⟩
      | some p =>
        have := hr y p hyl
        omega
    | succ n ih =>
      intro y hy
      cases hyl : dlookup parents y with
      | none => exact ⟨[y], RPath.nil hyl⟩
      | some p =>
        have hlt := hr y p hyl
        obtain ⟨l, hl⟩ := ih p (by omega)
        exact ⟨y :: l, RPath.cons hyl hl⟩
  exact H (r x) x (le_refl _)

theorem exists_rootIs_of_ranking {parents : Parenthood} {r : Nat → Nat}
    (hr : ∀ x p, dlookup parents x = some p → r p < r x) (x : Nat) :
    ∃ root, RootIs parents x root := by
  obtain ⟨l, hl⟩ := exists_rpath_of_ranking hr x
  exact ⟨l.getLast hl.ne_nil, l, hl, hl.ne_nil, rfl⟩

/-- Membership form of the ranking hypothesis, convenient for concrete dicts. -/
theorem ranking_of_forall_mem {parents : Parenthood} {r : Nat → Nat}
    (h : ∀ p ∈ parents, r p.2 < r p.1) :
    ∀ x q, dlookup parents x = some q → r q < r x := by
  intro x q hq
  exact h (x, q) (dlookup_mem hq)

/-! ### `get_root_path` (functional_api.get_root_path)

```python
if node not in parents: warn; return [node]
root = node; root_path = [node]
while root in parents:
    root = parents[root]; root_path.append(root)
return root_path
```
The missing-node branch returns the same `[node]` the loop would, with a
non-fatal warning; warnings are I/O side effects and are not modelled. -/

def getRootPathAux : Nat → Parenthood → Nat → Option (List Nat)
  | 0, _, _ => none
  | fuel + 1, parents, node =>
    match dlookup parents node with
    | none => some [node]
    | some p => (getRootPathAux fuel parents p).map (fun l => node :: l)

def get_root_path (parents : Parenthood) (node : Nat) : Option (List Nat) :=
  getRootPathAux (parents.length + 1) parents node

theorem getRootPathAux_of_rpath {parents : Parenthood} {x : Nat} {l : List Nat}
    (h : RPath parents x l) :
    ∀ fuel, l.length ≤ fuel → getRootPathAux fuel parents x = some l := by
  induction h with
  | @nil x' hx =>
    intro fuel hfuel
    match fuel, hfuel with
    | fuel + 1, _ => simp [getRootPathAux, hx]
  | @cons x' p l' hx hrest ih =>
    intro fuel hfuel
    match fuel, hfuel with
    | fuel + 1, hfuel =>
      have hl : l'.length ≤ fuel := by simp at hfuel; omega
      simp only [getRootPathAux, hx]
      rw [ih fuel hl]
      rfl

theorem rpath_of_getRootPathAux {fuel : Nat} {parents : Parenthood} {x : Nat}
    {l : List Nat} (h : getRootPathAux fuel parents x = some l) : RPath parents x l := by
  induction fuel generalizing x l with
  | zero => simp [getRootPathAux] at h
  | succ fuel ih =>
    rw [getRootPathAux] at h
    cases hx : dlookup parents x with
    | none =>
      rw [hx] at h
      simp at h
      subst h
      exact RPath.nil hx
    | some p =>
      rw [hx] at h
      simp at h
      obtain ⟨l', hrec, hl⟩ := h
      subst hl
      exact RPath.cons hx (ih hrec)

theorem get_root_path_eq_some_iff {parents : Parenthood} {x : Nat} {l : List Nat} :
    get_root_path parents x = some l ↔ RPath parents x l := by
  constructor
  · exact rpath_of_getRootPathAux
  · intro h
    exact getRootPathAux_of_rpath h (parents.length + 1) h.length_le

/-! ### `get_root_path_match` (functional_api.get_root_path_match)

```python
if target not in parents: warn; return get_root_path(parents, node)
if node not in parents: warn; return []
root = node; root_path = [node]
while root in parents:
    if root == target: return root_path
    root = parents[root]; root_path.append(root)
# falls off the end: implicitly returns None
```
The result type is `Option (Option (List Nat))`: the outer `none` marks a
diverging loop (cyclic input), the inner `none` is Python's implicit `None`
return when the loop walks off the end of the chain without meeting
`target`. -/

def grpmLoop : Nat → Parenthood → Nat → Nat → Option (Option (List Nat))
  | 0, _, _, _ => none
  | fuel + 1, parents, target, root =>
    match dlookup parents root with
    | none => some none
    | some p =>
      if root = target then some (some [root])
      else (grpmLoop fuel parents target p).map (Option.map (fun l => root :: l))

def get_root_path_match (parents : Parenthood) (node target : Nat) :
    Option (Option (List Nat)) :=
  if (dlookup parents target).isNone then (get_root_path parents node).map some
  else if (dlookup parents node).isNone then some (some [])
  else grpmLoop (parents.length + 1) parents target node

/-- Walking the loop along a chain decomposed at the first occurrence of
`target`: the returned prefix is `l1 ++ [target]`. -/
theorem grpmLoop_of_rpath {parents : Parenthood} {x target : Nat}
    {l1 l2 : List Nat} (h : RPath parents x (l1 ++ target :: l2))
    (htk : (dlookup parents target).isSome) (hnotl1 : target ∉ l1) :
    ∀ fuel, l1.length + 1 ≤ fuel →
      grpmLoop fuel parents target x = some (some (l1 ++ [target])) := by
  induction l1 generalizing x with
  | nil =>
    intro fuel hfuel
    match fuel, hfuel with
    | fuel + 1, _ =>
      simp at h
      obtain ⟨t, ht⟩ := h.head_shape
      have hx : x = target := by
        cases ht
        rfl
      subst hx
      rw [grpmLoop]
      cases hl : dlookup parents x with
      | none => rw [hl] at htk; simp at htk
      | some p => simp [hl]
  | cons a l1' ih =>
    intro fuel hfuel
    match fuel, hfuel with
    | fuel + 1, hfuel =>
      have hshape := h.head_shape
      obtain ⟨t, ht⟩ := hshape
      have hax : a = x := by
        have : (a :: (l1' ++ target :: l2)) = x :: t := by simpa using ht
        exact (List.cons.injEq _ _ _ _).mp this |>.1
      subst hax
      have h' : RPath parents a (a :: (l1' ++ target :: l2)) := by
        simpa using h
      have hne2 : l1' ++ target :: l2 ≠ [] := by simp
      obtain ⟨p, hx, hrest⟩ := RPath.cons_inv h' hne2
      have hne : a ≠ target := fun hc => hnotl1 (hc ▸ List.mem_cons_self a l1')
      have hfl : l1'.length + 1 ≤ fuel := by simp at hfuel; omega
      have hnot' : target ∉ l1' := fun hc => hnotl1 (List.mem_cons_of_mem a hc)
      rw [grpmLoop]
      rw [hx]
      simp only [hne, if_false]
      rw [ih hrest hnot' fuel hfl]
      rfl

/-- The part of a chain from any of its decomposition points is itself a
chain. -/
theorem RPath.suffix_chain {parents : Parenthood} {x b : Nat} {l1 l2 : List Nat}
    (h : RPath parents x (l1 ++ b :: l2)) : RPath parents b (b :: l2) := by
  induction l1 generalizing x with
  | nil =>
    obtain ⟨t, ht⟩ := h.head_shape
    have hb : b = x := by
      have : b :: l2 = x :: t := by simpa using ht
      exact (List.cons.injEq _ _ _ _).mp this |>.1
    subst hb
    simpa using h
  | cons a l1' ih =>
    obtain ⟨t, ht⟩ := h.head_shape
    have hax : a = x := by
      have : a :: (l1' ++ b :: l2) = x :: t := by simpa using ht
      exact (List.cons.injEq _ _ _ _).mp this |>.1
    subst hax
    have h' : RPath parents a (a :: (l1' ++ b :: l2)) := by simpa using h
    obtain ⟨p, hx, hrest⟩ := RPath.cons_inv h' (by simp)
    exact ih hrest

/-- `get_root_path_match` on a chain decomposed at the first occurrence of
`target` returns the prefix of the root path up to and including `target`. -/
theorem get_root_path_match_of_decomp {parents : Parenthood} {x target : Nat}
    {l1 l2 : List Nat} (h : RPath parents x (l1 ++ target :: l2))
    (hnotl1 : target ∉ l1) :
    get_root_path_match parents x target = some (some (l1 ++ [target])) := by
  cases htk : dlookup parents target with
  | none =>
    -- the target is the final root of the chain, so the full root path is
    -- exactly the prefix ending at the target
    have hsub : RPath parents target (target :: l2) := h.suffix_chain
    have hl2 : l2 = [] := by
      cases hsub with
      | nil _ => rfl
      | cons hx _ => rw [htk] at hx; cases hx
    subst hl2
    have hrp : get_root_path parents x = some (l1 ++ [target]) := by
      rw [get_root_path_eq_some_iff]
      simpa using h
    rw [get_root_path_match]
    simp [htk, hrp]
  | some tq =>
    have hxk : (dlookup parents x).isSome := by
      cases l1 with
      | nil =>
        obtain ⟨t, ht⟩ := h.head_shape
        have hb : target = x := by
          have : target :: l2 = x :: t := by simpa using ht
          exact (List.cons.injEq _ _ _ _).mp this |>.1
        subst hb
        simp [htk]
      | cons a l1' =>
        obtain ⟨t, ht⟩ := h.head_shape
        have hax : a = x := by
          have : a :: (l1' ++ target :: l2) = x :: t := by simpa using ht
          exact (List.cons.injEq _ _ _ _).mp this |>.1
        subst hax
        have h' : RPath parents a (a :: (l1' ++ target :: l2)) := by simpa using h
        obtain ⟨p, hx, _⟩ := RPath.cons_inv h' (by simp)
        simp [hx]
    have hfuel : l1.length + 1 ≤ parents.length + 1 := by
      have := h.length_le
      simp at this
      omega
    rw [get_root_path_match]
    rw [htk]
    cases hxl : dlookup parents x with
    | none => rw [hxl] at hxk; simp at hxk
    | some q =>
      simp only [Option.isNone_some, Bool.false_eq_true, if_false]
      exact grpmLoop_of_rpath h (by simp [htk]) hnotl1 _ hfuel

/-! ### `get_leaves` family (functional_api.get_leaves_without_prop /
get_leaves_with_prop / get_leaves)

Breadth-first frontier expansion.  `get_leaves_with_prop`:

```python
if node not in prop: warn; return []
if not prop[node]: warn; return []
if node not in children: warn; return [node]
no_lvs = [node]; lvs = []
while len(no_lvs) > 0:
    new_no_lvs = []
    for n in no_lvs:
        if n in prop:
            if prop[n]:
                if n in children:
                    candidates = [c for c in children[n] if c in prop and prop[c]]
                    new_no_lvs += candidates
                    if len(candidates) == 0: lvs.append(n)
                else: lvs.append(n)
        else: warn
    no_lvs = new_no_lvs
return lvs
```
-/

/-- `c in prop and prop[c]` for a binary property. -/
def propTrue (prop : BinaryNodeProperty) (c : Nat) : Bool :=
  (dlookup prop c).getD false

/-- One pass of the `for n in no_lvs` loop: returns the new frontier and the
leaves appended during this round, in processing order. -/
def glwpStep (children : Childhood) (prop : BinaryNodeProperty) :
    List Nat → List Nat × List Nat
  | [] => ([], [])
  | n :: rest =>
    let acc := glwpStep children prop rest
    if propTrue prop n then
      match dlookup children n with
      | some cs =>
        let candidates := cs.filter (fun c => propTrue prop c)
        (candidates ++ acc.1, (if candidates.isEmpty then [n] else []) ++ acc.2)
      | none => (acc.1, n :: acc.2)
    else acc

def glwpLoop : Nat → Childhood → BinaryNodeProperty → List Nat → Option (List Nat)
  | 0, _, _, frontier => if frontier.isEmpty then some [] else none
  | fuel + 1, children, prop, frontier =>
    if frontier.isEmpty then some []
    else
      let step := glwpStep children prop frontier
      (glwpLoop fuel children prop step.1).map (fun rest => step.2 ++ rest)

def get_leaves_with_prop (children : Childhood) (node : Nat)
    (prop : BinaryNodeProperty) : Option (List Nat) :=
  match dlookup prop node with
  | none => some []
  | some false => some []
  | some true =>
    match dlookup children node with
    | none => some [node]
    | some _ => glwpLoop (children.length + 2) children prop [node]

/-- One pass of the unfiltered breadth-first expansion of
`get_leaves_without_prop`. -/
def glStep (children : Childhood) : List Nat → List Nat × List Nat
  | [] => ([], [])
  | n :: rest =>
    let acc := glStep children rest
    match dlookup children n with
    | some cs => (cs ++ acc.1, acc.2)
    | none => (acc.1, n :: acc.2)

def glLoop : Nat → Childhood → List Nat → Option (List Nat)
  | 0, _, frontier => if frontier.isEmpty then some [] else none
  | fuel + 1, children, frontier =>
    if frontier.isEmpty then some []
    else
      let step := glStep children frontier
      (glLoop fuel children step.1).map (fun rest => step.2 ++ rest)

def get_leaves_without_prop (children : Childhood) (node : Nat) : Option (List Nat) :=
  match dlookup children node with
  | none => some [node]
  | some _ => glLoop (children.length + 2) children [node]

/-- `get_leaves(children, node, prop=None)`: dispatch on the optional
predicate. -/
def get_leaves (children : Childhood) (node : Nat)
    (prop : Option BinaryNodeProperty) : Option (List Nat) :=
  match prop with
  | none => get_leaves_without_prop children node
  | some p => get_leaves_with_prop children node p

/-! ### Union-Find

Modelled from the spec: `treez/util.py` (the `UFDS` class) is not under
`src/`; only its importers are.  Spec 4.1: `get_root(node)` returns the
representative of `node`'s component (a fresh node is its own
representative), and `union(edge)` merges the two components containing the
edge's endpoints, with any consistent union policy allowed; we model the
state as the representative function itself, with `union` redirecting the
second endpoint's class onto the first endpoint's representative. -/

def ufdsInit : Nat → Nat := id

def ufUnion (uf : Nat → Nat) (n1 n2 : Nat) : Nat → Nat :=
  fun x => if uf x = uf n2 then uf n1 else uf x

/-! ### `kruskal_edges` (functional_api.kruskal_edges)

```python
components = UFDS()
edges = sorted(edges, key=lambda x: weights[x])
k_edges = []; k_weights = []
for edge in edges:
    n1, n2 = edge
    rn1 = components.get_root(n1); rn2 = components.get_root(n2)
    if rn1 != rn2:
        components.union(edge); k_edges.append(edge); k_weights.append(weights[edge])
return k_edges, k_weights
```
Edge weights are a total function: the spec requires `weights` to cover
every edge (a missing entry is a fatal lookup failure). -/

def keStep (weights : Edge → Int) (st : (Nat → Nat) × List Edge × List Int)
    (e : Edge) : (Nat → Nat) × List Edge × List Int :=
  let uf := st.1
  if uf e.1 = uf e.2 then st
  else (ufUnion uf e.1 e.2, st.2.1 ++ [e], st.2.2 ++ [weights e])

def kruskal_edges (edges : List Edge) (weights : Edge → Int) :
    List Edge × List Int :=
  let sorted := edges.insertionSort (fun a b => weights a ≤ weights b)
  let res := sorted.foldl (keStep weights) (ufdsInit, [], [])
  (res.2.1, res.2.2)

/-! ### `kruskal_tree` (functional_api.kruskal_tree)

```python
parents = {}; children = {}; props = {"weights": {}, "size": {}}
k_edges, k_weights = kruskal_edges(edges, weights)
max_node = 2 * len(k_edges)
for edge, weight in zip(k_edges, k_weights):
    n1, n2 = edge
    rn1 = get_root(parents, n1); rn2 = get_root(parents, n2)
    if rn1 in props["size"]: s1 = props["size"][rn1]
    else: s1 = size[n1]; props["size"][rn1] = s1
    if rn2 in props["size"]: s2 = props["size"][rn2]
    else: s2 = size[n2]; props["size"][rn2] = s2
    parents[rn1] = max_node; parents[rn2] = max_node
    children[max_node] = [rn1, rn2]
    props["weights"][max_node] = weight
    props["size"][max_node] = s1 + s2
    max_node += 1
return parents, children, props
```
`size` is a total function on nodes (the spec requires it to cover every
leaf).  The `get_root` calls walk the parent map being built; a `none`
result of the whole function marks a diverging `get_root` (which can only
happen when synthesized ids collide with leaf ids). -/

structure KTState : Type where
  parents : Parenthood
  children : Childhood
  weights : NumericalNodeProperty
  sizes : NumericalNodeProperty
  maxNode : Nat

/-- The body of one `kruskal_tree` loop iteration once the two current
roots `rn1`, `rn2` of the edge's endpoints `n1`, `n2` are resolved. -/
def ktMerge (size : Nat → Int) (st : KTState) (rn1 rn2 n1 n2 : Nat)
    (w : Int) : KTState :=
  let sz1 :=
    match dlookup st.sizes rn1 with
    | some s => (s, st.sizes)
    | none => (size n1, dinsert st.sizes rn1 (size n1))
  let sz2 :=
    match dlookup sz1.2 rn2 with
    | some s => (s, sz1.2)
    | none => (size n2, dinsert sz1.2 rn2 (size n2))
  { parents := dinsert (dinsert st.parents rn1 st.maxNode) rn2 st.maxNode
    children := dinsert st.children st.maxNode [rn1, rn2]
    weights := dinsert st.weights st.maxNode w
    sizes := dinsert sz2.2 st.maxNode (sz1.1 + sz2.1)
    maxNode := st.maxNode + 1 }

def ktStep (size : Nat → Int) (st : KTState) (ew : Edge × Int) : Option KTState :=
  match get_root st.parents ew.1.1, get_root st.parents ew.1.2 with
  | some rn1, some rn2 => some (ktMerge size st rn1 rn2 ew.1.1 ew.1.2 ew.2)
  | _, _ => none

def kruskal_tree (edges : List Edge) (weights : Edge → Int) (size : Nat → Int) :
    Option (Parenthood × Childhood × NumericalNodeProperty × NumericalNodeProperty) :=
  let kek := kruskal_edges edges weights
  let init : KTState := ⟨[], [], [], [], 2 * kek.1.length⟩
  ((kek.1.zip kek.2).foldlM (ktStep size) init).map
    (fun st => (st.parents, st.children, st.weights, st.sizes))

/-! ### Cut engine (functional_api._expand_on_property / cut_on_property)

```python
def _expand_on_property(cut, children, prop, threshold):
    candidates = []
    for node in cut:
        if node in children: candidates += children[node]
    expansion = []
    for candidate in candidates:
        if candidate in prop:
            if prop[candidate] >= threshold: expansion.append(candidate)
    return expansion

def cut_on_property(parents, children, prop, threshold):
    root = get_root(parents)
    cut = set(); remaining = [root]
    while len(remaining) > 0:
        cut |= set(remaining)
        remaining = _expand_on_property(remaining, children, prop, threshold)
    return list(cut)
```
The result is a Python set; we model it as a `Finset`.  The `get_root` call
without a node resolves the root of the first key of `parents` (CPython dict
iteration order); an empty parenthood (where Python would return the value
`None` and propagate it into the cut) is outside the modelled domain and is
mapped to the outer `none`. -/

def expand_on_property (cut : List Nat) (children : Childhood)
    (prop : NumericalNodeProperty) (threshold : Int) : List Nat :=
  let candidates := cut.foldl
    (fun acc node =>
      match dlookup children node with
      | some cs => acc ++ cs
      | none => acc) []
  candidates.filter (fun c =>
    match dlookup prop c with
    | some v => decide (threshold ≤ v)
    | none => false)

def cutLoop : Nat → Childhood → NumericalNodeProperty → Int → Finset Nat →
    List Nat → Option (Finset Nat)
  | 0, _, _, _, cutAcc, remaining =>
    if remaining.isEmpty then some cutAcc else none
  | fuel + 1, children, prop, threshold, cutAcc, remaining =>
    if remaining.isEmpty then some cutAcc
    else
      cutLoop fuel children prop threshold (cutAcc ∪ remaining.toFinset)
        (expand_on_property remaining children prop threshold)

def cut_on_property (parents : Parenthood) (children : Childhood)
    (prop : NumericalNodeProperty) (threshold : Int) : Option (Finset Nat) :=
  match parents with
  | [] => none
  | (k, _) :: _ =>
    match get_root parents k with
    | none => none
    | some root => cutLoop (children.length + 2) children prop threshold ∅ [root]

/-! ### `common_ancestor` and `edge_dist` (functional_api)

```python
def common_ancestor(parents, node1, node2):
    if node1 in parents and node2 in parents:
        rp1 = get_root_path(parents, node1); rp2 = get_root_path(parents, node2)
        if len(set(rp1) & set(rp2)) > 0:
            for node in rp1:
                if node in rp2: return node
        raise UnrelatedNode(...)
    raise UnrelatedNode(...)

def edge_dist(parents, node1, node2):
    ancestor = common_ancestor(parents, node1, node2)
    rpm1 = get_root_path_match(parents, node1, ancestor)
    rpm2 = get_root_path_match(parents, node2, ancestor)
    return len(set(rpm1) | set(rpm2))
```
The nonempty-intersection test followed by the `for` loop is exactly
`List.find?` over `rp1`; when `get_root_path_match` returns Python's `None`
(never on the inputs `edge_dist` produces), `set(None)` would raise a
`TypeError`, recorded as `pyTypeError`. -/

def common_ancestor (parents : Parenthood) (node1 node2 : Nat) :
    Option (Except TreezError Nat) :=
  if (dlookup parents node1).isSome && (dlookup parents node2).isSome then
    match get_root_path parents node1, get_root_path parents node2 with
    | some rp1, some rp2 =>
      match rp1.find? (fun x => decide (x ∈ rp2)) with
      | some a => some (Except.ok a)
      | none => some (Except.error TreezError.unrelatedNode)
    | _, _ => none
  else some (Except.error TreezError.unrelatedNode)

def edge_dist (parents : Parenthood) (node1 node2 : Nat) :
    Option (Except TreezError Nat) :=
  match common_ancestor parents node1 node2 with
  | none => none
  | some (Except.error e) => some (Except.error e)
  | some (Except.ok ancestor) =>
    match get_root_path_match parents node1 ancestor,
          get_root_path_match parents node2 ancestor with
    | some (some rpm1), some (some rpm2) =>
      some (Except.ok (rpm1.toFinset ∪ rpm2.toFinset).card)
    | some none, some _ => some (Except.error TreezError.pyTypeError)
    | some _, some none => some (Except.error TreezError.pyTypeError)
    | _, _ => none

/-! ### `tree_to_json` (functional_api.tree_to_json)

The values supplied for `nodeprops` / `edgeprops` are arbitrary Python
objects, modelled by `PyVal`.  The function validates them with
`isinstance(..., dict)` and only then serializes and opens the output file,
so on a validation error nothing is written; accordingly the model returns
`Except.error` carrying no output record. -/

inductive PyVal : Type where
  | int : Int → PyVal
  | str : String → PyVal
  | dict : List (String × PyVal) → PyVal

def PyVal.isDict : PyVal → Bool
  | .dict _ => true
  | _ => false

/-- The record written to the JSON file. -/
structure TreeJson : Type where
  nodes : List Nat
  parents : Parenthood
  children : Childhood
  nodeprops : List (String × PyVal)
  edgeprops : List (String × PyVal)

def tree_to_json (nodes : List Nat) (parents : Parenthood)
    (children : Childhood) (nodeprops edgeprops : Option PyVal) :
    Except TreezError TreeJson :=
  match nodeprops with
  | some (PyVal.int _) => Except.error TreezError.invalidNodeProps
  | some (PyVal.str _) => Except.error TreezError.invalidNodeProps
  | some (PyVal.dict np) =>
    match edgeprops with
    | some (PyVal.int _) => Except.error TreezError.invalidEdgeProps
    | some (PyVal.str _) => Except.error TreezError.invalidEdgeProps
    | some (PyVal.dict ep) => Except.ok ⟨nodes, parents, children, np, ep⟩
    | none => Except.ok ⟨nodes, parents, children, np, []⟩
  | none =>
    match edgeprops with
    | some (PyVal.int _) => Except.error TreezError.invalidEdgeProps
    | some (PyVal.str _) => Except.error TreezError.invalidEdgeProps
    | some (PyVal.dict ep) => Except.ok ⟨nodes, parents, children, [], ep⟩
    | none => Except.ok ⟨nodes, parents, children, [], []⟩

/-! ### Node sets of a built structure -/

/-- All nodes occurring in a `(parents, children)` structure: keys and values
of the parent map, keys of the child map and all listed children. -/
def occurNodes (parents : Parenthood) (children : Childhood) : Finset Nat :=
  (dkeys parents).toFinset ∪ (parents.map Prod.snd).toFinset ∪
    (dkeys children).toFinset ∪
    children.foldr (fun p s => p.2.toFinset ∪ s) ∅

/-- The set of leaves of the input graph: all edge endpoints. -/
def endPts (edges : List Edge) : Finset Nat :=
  edges.foldr (fun e s => insert e.1 (insert e.2 s)) ∅

theorem mem_endPts {edges : List Edge} {x : Nat} :
    x ∈ endPts edges ↔ ∃ e ∈ edges, x = e.1 ∨ x = e.2 := by
  induction edges with
  | nil => simp [endPts]
  | cons e rest ih =>
    simp [endPts] at ih ⊢
    constructor
    · rintro (h | h | h)
      · exact Or.inl (Or.inl h)
      · exact Or.inl (Or.inr h)
      · obtain ⟨e', he', hx⟩ := ih.mp h
        exact Or.inr ⟨e', he', hx⟩
    · rintro ((h | h) | ⟨e', he', hx⟩)
      · exact Or.inl h
      · exact Or.inr (Or.inl h)
      · exact Or.inr (Or.inr (ih.mpr ⟨e', he', hx⟩))

/-! ### `List.find?` decomposition helpers (the `for node in rp1` scan) -/

theorem find?_decomp_eq_some {α : Type} (p : α → Bool) (l1 : List α) (a : α)
    (l2 : List α) (hpa : p a = true) (hl1 : ∀ y ∈ l1, p y = false) :
    (l1 ++ a :: l2).find? p = some a := by
  induction l1 with
  | nil => simp [List.find?, hpa]
  | cons b l1' ih =>
    have hb : p b = false := hl1 b (List.mem_cons_self _ _)
    simp only [List.cons_append, List.find?, hb]
    exact ih (fun y hy => hl1 y (List.mem_cons_of_mem _ hy))

theorem find?_eq_some_decomp {α : Type} {p : α → Bool} {l : List α} {a : α}
    (h : l.find? p = some a) :
    ∃ l1 l2, l = l1 ++ a :: l2 ∧ p a = true ∧ ∀ y ∈ l1, p y = false := by
  induction l with
  | nil => simp [List.find?] at h
  | cons b rest ih =>
    rw [List.find?] at h
    cases hb : p b with
    | true =>
      rw [hb] at h
      simp at h
      subst h
      exact ⟨[], rest, rfl, hb, by simp⟩
    | false =>
      rw [hb] at h
      obtain ⟨l1, l2, hl, hpa, hl1⟩ := ih h
      refine ⟨b :: l1, l2, by rw [hl]; rfl, hpa, ?_⟩
      intro y hy
      rcases List.mem_cons.mp hy with rfl | hy'
      · exact hb
      · exact hl1 y hy'

/-! ### Claims C1, C6, C9 -/

/-- The concrete scenario of the spec (section 8): leaves `{0,1,2,3}`,
edges `(0,1),(2,3),(1,2)` with weights `1,2,3`, all sizes `1`. -/
def scenarioEdges : List Edge := [(0, 1), (2, 3), (1, 2)]

def scenarioWeights : Edge → Int := fun e =>
  if e = (0, 1) then 1 else if e = (2, 3) then 2 else if e = (1, 2) then 3 else 0

def scenarioSize : Nat → Int := fun _ => 1

/-- C1: on the input with leaves {0,1,2,3}, edges (0,1),(2,3),(1,2) with
weights 1,2,3 and unit sizes, `kruskal_tree` retains all three edges in
weight order (0,1), (2,3), (1,2); assigns internal ids 6, 7, 8 (starting at
2*|k_edges| = 6, incrementing per retained edge); makes 6 the parent of 0,1
(size 2, weight 1), 7 the parent of 2,3 (size 2, weight 2), 8 the parent of
6,7 (size 4, weight 3); and 8 is the unique occurring node without an entry
in `parents` (the root). -/
theorem claim_C1 :
    kruskal_edges scenarioEdges scenarioWeights =
      ([(0, 1), (2, 3), (1, 2)], [1, 2, 3]) ∧
    2 * (kruskal_edges scenarioEdges scenarioWeights).1.length = 6 ∧
    kruskal_tree scenarioEdges scenarioWeights scenarioSize =
      some ([(0, 6), (1, 6), (2, 7), (3, 7), (6, 8), (7, 8)],
            [(6, [0, 1]), (7, [2, 3]), (8, [6, 7])],
            [(6, 1), (7, 2), (8, 3)],
            [(0, 1), (1, 1), (6, 2), (2, 1), (3, 1), (7, 2), (8, 4)]) ∧
    (occurNodes [(0, 6), (1, 6), (2, 7), (3, 7), (6, 8), (7, 8)]
        [(6, [0, 1]), (7, [2, 3]), (8, [6, 7])]).filter
      (fun n => dlookup [(0, 6), (1, 6), (2, 7), (3, 7), (6, 8), (7, 8)] n = none)
      = {8} :=
  ⟨by decide, by decide, rfl, by decide⟩

/-- C6: the code walks off the end of the chain and silently returns Python
`None` (modelled as the inner `none`) when `target` is a key of `parents`
but is never met on the chain from `node`; no `NotAnAncestor`-style failure
(`UnreachableAncestor` is imported by `functional_api` but never raised).
Failing input: `parents = {0: 1, 2: 3}`, `node = 0`, `target = 2`. -/
theorem claim_C6 :
    dlookup [(0, 1), (2, 3)] 2 = some 3 ∧
    dlookup [(0, 1), (2, 3)] 0 = some 1 ∧
    get_root_path_match [(0, 1), (2, 3)] 0 2 = some none :=
  ⟨rfl, rfl, rfl⟩

/-- A name-to-map structure, in the spec's words (section 6): a mapping from
property names to property maps. -/
def specNameToMap : PyVal → Bool
  | .dict entries => entries.all (fun p => p.2.isDict)
  | _ => false

/-- C9 counterexample: `nodeprops = {"a": 5}` is not a name-to-map structure
(its value is not a map), yet `tree_to_json` does not fail — it validates
only `isinstance(nodeprops, dict)` at the top level and happily writes the
record. -/
theorem claim_C9_counterexample :
    specNameToMap (PyVal.dict [("a", PyVal.int 5)]) = false ∧
    tree_to_json [] [] [] (some (PyVal.dict [("a", PyVal.int 5)])) none =
      Except.ok ⟨[], [], [], [("a", PyVal.int 5)], []⟩ :=
  ⟨rfl, rfl⟩

/-- C9 amended: `tree_to_json` fails with `InvalidNodeProps` exactly when the
supplied `nodeprops` is present and not a dict at the top level (values are
not inspected), and with `InvalidEdgeProps` exactly when `nodeprops` passed
that check and the supplied `edgeprops` is present and not a dict; in the
failure cases the function returns the error before producing any output
record, so nothing is written to the file (the model's `Except.error` result
carries no `TreeJson` by construction). -/
theorem claim_C9 :
    (∀ (nodes : List Nat) (parents : Parenthood) (children : Childhood)
        (np ep : Option PyVal),
      tree_to_json nodes parents children np ep =
          Except.error TreezError.invalidNodeProps ↔
        ∃ v, np = some v ∧ v.isDict = false) ∧
    (∀ (nodes : List Nat) (parents : Parenthood) (children : Childhood)
        (np ep : Option PyVal),
      tree_to_json nodes parents children np ep =
          Except.error TreezError.invalidEdgeProps ↔
        ((∀ v, np = some v → v.isDict = true) ∧
          ∃ w, ep = some w ∧ w.isDict = false)) := by
  constructor
  · intro nodes parents children np ep
    cases np with
    | none =>
      cases ep with
      | none => simp [tree_to_json]
      | some w => cases w <;> simp [tree_to_json, PyVal.isDict]
    | some v =>
      cases v with
      | int i =>
        simp [tree_to_json, PyVal.isDict]
      | str s =>
        simp [tree_to_json, PyVal.isDict]
      | dict l =>
        cases ep with
        | none => simp [tree_to_json, PyVal.isDict]
        | some w => cases w <;> simp [tree_to_json, PyVal.isDict]
  · intro nodes parents children np ep
    cases np with
    | none =>
      cases ep with
      | none => simp [tree_to_json]
      | some w => cases w <;> simp [tree_to_json, PyVal.isDict]
    | some v =>
      cases v with
      | int i =>
        cases ep with
        | none => simp [tree_to_json, PyVal.isDict]
        | some w => cases w <;> simp [tree_to_json, PyVal.isDict]
      | str s =>
        cases ep with
        | none => simp [tree_to_json, PyVal.isDict]
        | some w => cases w <;> simp [tree_to_json, PyVal.isDict]
      | dict l =>
        cases ep with
        | none => simp [tree_to_json, PyVal.isDict]
        | some w => cases w <;> simp [tree_to_json, PyVal.isDict]

/-- Witness for C9 at concrete inputs: `nodeprops = 5` triggers
`InvalidNodeProps`, and with a well-formed `nodeprops`, `edgeprops = "x"`
triggers `InvalidEdgeProps`. -/
theorem claim_C9_witness :
    tree_to_json [] [] [] (some (PyVal.int 5)) none =
      Except.error TreezError.invalidNodeProps ∧
    tree_to_json [] [] [] none (some (PyVal.str "x")) =
      Except.error TreezError.invalidEdgeProps :=
  ⟨(claim_C9.1 [] [] [] (some (PyVal.int 5)) none).mpr ⟨PyVal.int 5, rfl, rfl⟩,
   (claim_C9.2 [] [] [] none (some (PyVal.str "x"))).mpr
     ⟨(fun v hv => by cases hv), ⟨PyVal.str "x", rfl, rfl⟩⟩⟩

/-! ### Claims C3, C4, C5 (ancestor and edge distance) -/

theorem common_ancestor_found {parents : Parenthood} {n1 n2 : Nat}
    {rp1 rp2 : List Nat} {anc : Nat}
    (h1 : (dlookup parents n1).isSome = true)
    (h2 : (dlookup parents n2).isSome = true)
    (hrp1 : get_root_path parents n1 = some rp1)
    (hrp2 : get_root_path parents n2 = some rp2)
    (hfind : rp1.find? (fun x => decide (x ∈ rp2)) = some anc) :
    common_ancestor parents n1 n2 = some (Except.ok anc) := by
  rw [common_ancestor, if_pos (by rw [h1, h2]; rfl)]
  simp only [hrp1, hrp2, hfind]

theorem common_ancestor_not_found {parents : Parenthood} {n1 n2 : Nat}
    {rp1 rp2 : List Nat}
    (h1 : (dlookup parents n1).isSome = true)
    (h2 : (dlookup parents n2).isSome = true)
    (hrp1 : get_root_path parents n1 = some rp1)
    (hrp2 : get_root_path parents n2 = some rp2)
    (hfind : rp1.find? (fun x => decide (x ∈ rp2)) = none) :
    common_ancestor parents n1 n2 =
      some (Except.error TreezError.unrelatedNode) := by
  rw [common_ancestor, if_pos (by rw [h1, h2]; rfl)]
  simp only [hrp1, hrp2, hfind]

theorem edge_dist_found {parents : Parenthood} {n1 n2 anc : Nat}
    {rpm1 rpm2 : List Nat}
    (hca : common_ancestor parents n1 n2 = some (Except.ok anc))
    (hm1 : get_root_path_match parents n1 anc = some (some rpm1))
    (hm2 : get_root_path_match parents n2 anc = some (some rpm2)) :
    edge_dist parents n1 n2 =
      some (Except.ok (rpm1.toFinset ∪ rpm2.toFinset).card) := by
  simp only [edge_dist, hca, hm1, hm2]

/-- C5: `common_ancestor` fails with `UnrelatedNode` iff one of the nodes is
absent from the keys of `parents` or the two root paths share no node;
otherwise it returns the first node of `node1`'s root path (scanning from
`node1` toward its root) that also appears in `node2`'s root path.  Part 1:
an absent node forces the failure; part 2: with both nodes present and both
root paths computed, disjoint paths force the failure and a successful
`find?` scan is returned verbatim, together with its first-match
decomposition (the lowest common ancestor); part 3: every `UnrelatedNode`
failure arises in one of these ways. -/
theorem claim_C5 :
    (∀ (parents : Parenthood) (n1 n2 : Nat),
      (dlookup parents n1).isNone ∨ (dlookup parents n2).isNone →
      common_ancestor parents n1 n2 =
        some (Except.error TreezError.unrelatedNode)) ∧
    (∀ (parents : Parenthood) (n1 n2 : Nat) (rp1 rp2 : List Nat),
      (dlookup parents n1).isSome → (dlookup parents n2).isSome →
      get_root_path parents n1 = some rp1 →
      get_root_path parents n2 = some rp2 →
      ((∀ x ∈ rp1, x ∉ rp2) →
        common_ancestor parents n1 n2 =
          some (Except.error TreezError.unrelatedNode)) ∧
      (∀ anc, rp1.find? (fun x => decide (x ∈ rp2)) = some anc →
        common_ancestor parents n1 n2 = some (Except.ok anc) ∧
        ∃ l1 l2, rp1 = l1 ++ anc :: l2 ∧ anc ∈ rp2 ∧ ∀ y ∈ l1, y ∉ rp2)) ∧
    (∀ (parents : Parenthood) (n1 n2 : Nat),
      common_ancestor parents n1 n2 =
          some (Except.error TreezError.unrelatedNode) →
      (dlookup parents n1).isNone ∨ (dlookup parents n2).isNone ∨
        (∃ rp1 rp2, get_root_path parents n1 = some rp1 ∧
          get_root_path parents n2 = some rp2 ∧ ∀ x ∈ rp1, x ∉ rp2)) := by
  refine ⟨?_, ?_, ?_⟩
  · intro parents n1 n2 h
    rcases h with h | h
    · rw [Option.isNone_iff_eq_none] at h
      simp [common_ancestor, h]
    · rw [Option.isNone_iff_eq_none] at h
      simp [common_ancestor, h]
  · intro parents n1 n2 rp1 rp2 h1 h2 hrp1 hrp2
    constructor
    · intro hdisj
      have hfind : rp1.find? (fun x => decide (x ∈ rp2)) = none := by
        rw [List.find?_eq_none]
        intro x hx
        simpa using hdisj x hx
      exact common_ancestor_not_found h1 h2 hrp1 hrp2 hfind
    · intro anc hfind
      refine ⟨common_ancestor_found h1 h2 hrp1 hrp2 hfind, ?_⟩
      obtain ⟨l1, l2, hdec, hpa, hl1⟩ := find?_eq_some_decomp hfind
      refine ⟨l1, l2, hdec, by simpa using hpa, ?_⟩
      intro y hy
      simpa using hl1 y hy
  · intro parents n1 n2 h
    cases hx1 : dlookup parents n1 with
    | none => exact Or.inl (by simp [hx1])
    | some p1 =>
      cases hx2 : dlookup parents n2 with
      | none => exact Or.inr (Or.inl (by simp [hx2]))
      | some p2 =>
        refine Or.inr (Or.inr ?_)
        have h1 : (dlookup parents n1).isSome = true := by simp [hx1]
        have h2 : (dlookup parents n2).isSome = true := by simp [hx2]
        cases hrp1 : get_root_path parents n1 with
        | none =>
          exfalso
          rw [common_ancestor, if_pos (by rw [h1, h2]; rfl)] at h
          cases hrp2 : get_root_path parents n2 with
          | none => rw [hrp1, hrp2] at h; simp at h
          | some rp2 => rw [hrp1, hrp2] at h; simp at h
        | some rp1 =>
          cases hrp2 : get_root_path parents n2 with
          | none =>
            exfalso
            rw [common_ancestor, if_pos (by rw [h1, h2]; rfl)] at h
            rw [hrp1, hrp2] at h
            simp at h
          | some rp2 =>
            refine ⟨rp1, rp2, rfl, rfl, ?_⟩
            cases hfind : rp1.find? (fun x => decide (x ∈ rp2)) with
            | some a =>
              exfalso
              have hfound := common_ancestor_found h1 h2 hrp1 hrp2 hfind
              rw [hfound] at h
              simp at h
            | none =>
              rw [List.find?_eq_none] at hfind
              intro x hx
              simpa using hfind x hx

/-- Witness for C5: an absent node (5) forces `UnrelatedNode`; the two
disjoint chains `[0, 1]` and `[2, 3]` force `UnrelatedNode`; and the pair
`(0, 0)` in the chain `0 -> 1 -> 2` returns the head 0. -/
theorem claim_C5_witness :
    common_ancestor [(0, 1)] 0 5 = some (Except.error TreezError.unrelatedNode) ∧
    common_ancestor [(0, 1), (2, 3)] 0 2 =
      some (Except.error TreezError.unrelatedNode) ∧
    common_ancestor [(0, 1), (1, 2)] 0 0 = some (Except.ok 0) :=
  ⟨claim_C5.1 [(0, 1)] 0 5 (Or.inr (by decide)),
   (claim_C5.2.1 [(0, 1), (2, 3)] 0 2 [0, 1] [2, 3] (by decide) (by decide)
      rfl rfl).1 (by decide),
   ((claim_C5.2.1 [(0, 1), (1, 2)] 0 0 [0, 1, 2] [0, 1, 2] (by decide) (by decide)
      rfl rfl).2 0 (by decide)).1⟩

/-- C4: for an acyclic parenthood (witnessed by a ranking function) and a
node `n` present among its keys, `edge_dist(parents, n, n) = 1`: the
degenerate path is the single-node chain `[n]`, counted once. -/
theorem claim_C4 (parents : Parenthood) (n : Nat) (r : Nat → Nat)
    (hrank : ∀ p ∈ parents, r p.2 < r p.1)
    (hn : (dlookup parents n).isSome) :
    edge_dist parents n n = some (Except.ok 1) := by
  have hr := ranking_of_forall_mem hrank
  obtain ⟨rp, hrp⟩ := exists_rpath_of_ranking hr n
  obtain ⟨t, hshape⟩ := hrp.head_shape
  subst hshape
  have hrpe : get_root_path parents n = some (n :: t) :=
    get_root_path_eq_some_iff.mpr hrp
  have hfind : (n :: t).find? (fun x => decide (x ∈ n :: t)) = some n := by
    rw [List.find?]
    simp
  have hca : common_ancestor parents n n = some (Except.ok n) :=
    common_ancestor_found hn hn hrpe hrpe hfind
  have hdec : RPath parents n ([] ++ n :: t) := by simpa using hrp
  have hrpm : get_root_path_match parents n n = some (some [n]) := by
    have := get_root_path_match_of_decomp hdec (by simp)
    simpa using this
  rw [edge_dist_found hca hrpm hrpm]
  simp

/-- Witness for C4: `parents = {0: 1}`, `n = 0`, ranking `r(1) = 0`,
`r(x) = 1` otherwise. -/
theorem claim_C4_witness : edge_dist [(0, 1)] 0 0 = some (Except.ok 1) :=
  claim_C4 [(0, 1)] 0 (fun x => if x = 1 then 0 else 1) (by decide) (by decide)

/-- C3 counterexample: in the two-leaf tree `parents = {0: 2, 1: 2}` the
path from 0 to 1 via the lowest common ancestor 2 has exactly 2 tree edges
(one hop from each leaf to the ancestor), but `edge_dist` returns 3, the
number of distinct nodes in the union of the two prefixes — the claim's
"this value equals the number of tree edges on the path" is off by one. -/
theorem claim_C3_counterexample :
    get_root_path [(0, 2), (1, 2)] 0 = some [0, 2] ∧
    get_root_path [(0, 2), (1, 2)] 1 = some [1, 2] ∧
    common_ancestor [(0, 2), (1, 2)] 0 1 = some (Except.ok 2) ∧
    edge_dist [(0, 2), (1, 2)] 0 1 = some (Except.ok 3) ∧
    (3 : Nat) ≠ 1 + 1 :=
  ⟨rfl, rfl, rfl, rfl, by decide⟩

/-- C3 amended: with both nodes present, root paths decomposed at the lowest
common ancestor `anc` (first node of `node1`'s path also on `node2`'s path:
`rp1 = l1 ++ anc :: l2`, `rp2 = m1 ++ anc :: m2`, no element of `l1` on
`rp2`), `edge_dist` returns the number of distinct nodes in the union of the
two root-path-match prefixes, which is the number of tree edges on the path
from `node1` to `node2` via `anc` (`l1.length + m1.length` parent hops)
plus one. -/
theorem claim_C3 (parents : Parenthood) (n1 n2 anc : Nat)
    (l1 l2 m1 m2 : List Nat)
    (h1 : (dlookup parents n1).isSome) (h2 : (dlookup parents n2).isSome)
    (hrp1 : get_root_path parents n1 = some (l1 ++ anc :: l2))
    (hrp2 : get_root_path parents n2 = some (m1 ++ anc :: m2))
    (hfirst : ∀ y ∈ l1, y ∉ m1 ++ anc :: m2) :
    edge_dist parents n1 n2 = some (Except.ok (l1.length + m1.length + 1)) := by
  have hR1 : RPath parents n1 (l1 ++ anc :: l2) := get_root_path_eq_some_iff.mp hrp1
  have hR2 : RPath parents n2 (m1 ++ anc :: m2) := get_root_path_eq_some_iff.mp hrp2
  have hnd1 := hR1.nodup
  have hnd2 := hR2.nodup
  rw [List.nodup_append] at hnd1 hnd2
  have hanc1 : anc ∉ l1 := fun hc => hnd1.2.2 hc (List.mem_cons_self _ _)
  have hanc2 : anc ∉ m1 := fun hc => hnd2.2.2 hc (List.mem_cons_self _ _)
  have hfind : (l1 ++ anc :: l2).find?
      (fun x => decide (x ∈ m1 ++ anc :: m2)) = some anc := by
    refine find?_decomp_eq_some _ _ _ _ (by simp) ?_
    intro y hy
    simpa using hfirst y hy
  have hca : common_ancestor parents n1 n2 = some (Except.ok anc) :=
    common_ancestor_found h1 h2 hrp1 hrp2 hfind
  have hrpm1 : get_root_path_match parents n1 anc = some (some (l1 ++ [anc])) :=
    get_root_path_match_of_decomp hR1 hanc1
  have hrpm2 : get_root_path_match parents n2 anc = some (some (m1 ++ [anc])) :=
    get_root_path_match_of_decomp hR2 hanc2
  have hdisj : Disjoint l1.toFinset m1.toFinset := by
    rw [Finset.disjoint_left]
    intro a ha hb
    exact hfirst a (List.mem_toFinset.mp ha)
      (List.mem_append_left _ (List.mem_toFinset.mp hb))
  have hancout : anc ∉ l1.toFinset ∪ m1.toFinset := by
    intro hc
    rcases Finset.mem_union.mp hc with hc | hc
    · exact hanc1 (List.mem_toFinset.mp hc)
    · exact hanc2 (List.mem_toFinset.mp hc)
  have hunion : (l1 ++ [anc]).toFinset ∪ (m1 ++ [anc]).toFinset =
      insert anc (l1.toFinset ∪ m1.toFinset) := by
    ext a
    simp
    tauto
  have hcard : ((l1 ++ [anc]).toFinset ∪ (m1 ++ [anc]).toFinset).card =
      l1.length + m1.length + 1 := by
    rw [hunion, Finset.card_insert_of_not_mem hancout,
      Finset.card_union_of_disjoint hdisj,
      List.toFinset_card_of_nodup hnd1.1, List.toFinset_card_of_nodup hnd2.1]
  rw [edge_dist_found hca hrpm1 hrpm2, hcard]

/-- Witness for C3 at the two-leaf tree `parents = {0: 2, 1: 2}`:
`edge_dist(parents, 0, 1) = 1 + 1 + 1 = 3`. -/
theorem claim_C3_witness :
    edge_dist [(0, 2), (1, 2)] 0 1 =
      some (Except.ok ([0].length + [1].length + 1)) :=
  claim_C3 [(0, 2), (1, 2)] 0 1 2 [0] [] [1] [] (by decide) (by decide)
    rfl rfl (by decide)

/-! ### Claim C10 (the root is always in the cut) -/

theorem cutLoop_subset {fuel : Nat} {children : Childhood}
    {prop : NumericalNodeProperty} {threshold : Int} {acc : Finset Nat}
    {rem : List Nat} {res : Finset Nat}
    (h : cutLoop fuel children prop threshold acc rem = some res) :
    acc ⊆ res ∧ ∀ x ∈ rem, x ∈ res := by
  induction fuel generalizing acc rem with
  | zero =>
    rw [cutLoop] at h
    by_cases hrem : rem.isEmpty
    · rw [if_pos hrem] at h
      have hacc : acc = res := by simpa using h
      subst hacc
      exact ⟨Finset.Subset.refl _, fun x hx => by
        rw [List.isEmpty_iff] at hrem
        subst hrem
        cases hx⟩
    · rw [if_neg hrem] at h
      cases h
  | succ fuel ih =>
    rw [cutLoop] at h
    by_cases hrem : rem.isEmpty
    · rw [if_pos hrem] at h
      have hacc : acc = res := by simpa using h
      subst hacc
      exact ⟨Finset.Subset.refl _, fun x hx => by
        rw [List.isEmpty_iff] at hrem
        subst hrem
        cases hx⟩
    · rw [if_neg hrem] at h
      obtain ⟨h1, _⟩ := ih h
      refine ⟨fun x hx => h1 (Finset.mem_union_left _ hx), ?_⟩
      intro x hx
      exact h1 (Finset.mem_union_right _ (List.mem_toFinset.mpr hx))

/-- C10: whenever `cut_on_property` terminates on a non-empty parenthood, its
result contains the root resolved by `get_root` from the first key of
`parents`, regardless of whether that root carries `prop` or meets the
threshold — the property/threshold gate applies only to descent into
children, never to the root itself. -/
theorem claim_C10 (parents : Parenthood) (children : Childhood)
    (prop : NumericalNodeProperty) (threshold : Int) (k v : Nat)
    (rest : Parenthood) (root : Nat) (res : Finset Nat)
    (hp : parents = (k, v) :: rest)
    (hroot : get_root parents k = some root)
    (hres : cut_on_property parents children prop threshold = some res) :
    root ∈ res := by
  subst hp
  rw [cut_on_property] at hres
  rw [hroot] at hres
  exact (cutLoop_subset hres).2 root (by simp)

/-- Witness for C10: `parents = {0: 1}`, empty childhood, empty property;
the root 1 has no `prop` entry yet lies in the cut. -/
theorem claim_C10_witness :
    ∃ res, cut_on_property [(0, 1)] [] [] 0 = some res ∧ 1 ∈ res :=
  ⟨{1}, by decide,
    claim_C10 [(0, 1)] [] [] 0 0 1 [] 1 {1} rfl (by decide) (by decide)⟩

/-! ### Claim C7 (predicate-gated leaf enumeration) -/

/-- Every leaf emitted by one BFS round of `get_leaves_with_prop` satisfies
the predicate and has no qualifying children. -/
theorem glwpStep_leaves {children : Childhood} {prop : BinaryNodeProperty}
    {frontier : List Nat} {n : Nat}
    (h : n ∈ (glwpStep children prop frontier).2) :
    propTrue prop n = true ∧
      (dlookup children n = none ∨
        ∃ cs, dlookup children n = some cs ∧
          ∀ c ∈ cs, propTrue prop c = false) := by
  induction frontier with
  | nil => simp [glwpStep] at h
  | cons m rest ih =>
    rw [glwpStep] at h
    cases hpt : propTrue prop m with
    | false =>
      rw [hpt] at h
      simp at h
      exact ih h
    | true =>
      rw [hpt] at h
      simp only [if_true] at h
      cases hcm : dlookup children m with
      | none =>
        rw [hcm] at h
        simp at h
        rcases h with rfl | h
        · exact ⟨hpt, Or.inl hcm⟩
        · exact ih h
      | some cs =>
        rw [hcm] at h
        simp only [] at h
        rcases List.mem_append.mp h with h' | h'
        · by_cases hempty : (cs.filter (fun c => propTrue prop c)).isEmpty
          · rw [if_pos hempty] at h'
            simp at h'
            subst h'
            refine ⟨hpt, Or.inr ⟨cs, hcm, ?_⟩⟩
            intro c hc
            rw [List.isEmpty_iff] at hempty
            have := List.filter_eq_nil_iff.mp hempty c hc
            simpa using this
          · rw [if_neg hempty] at h'
            simp at h'
        · exact ih h'

/-- Every leaf produced by the whole BFS loop satisfies the predicate and
has no qualifying children. -/
theorem glwpLoop_leaves {fuel : Nat} {children : Childhood}
    {prop : BinaryNodeProperty} {frontier res : List Nat} {x : Nat}
    (h : glwpLoop fuel children prop frontier = some res) (hx : x ∈ res) :
    propTrue prop x = true ∧
      (dlookup children x = none ∨
        ∃ cs, dlookup children x = some cs ∧
          ∀ c ∈ cs, propTrue prop c = false) := by
  induction fuel generalizing frontier res with
  | zero =>
    rw [glwpLoop] at h
    by_cases hfr : frontier.isEmpty
    · rw [if_pos hfr] at h
      have : ([] : List Nat) = res := by simpa using h
      subst this
      cases hx
    · rw [if_neg hfr] at h
      cases h
  | succ fuel ih =>
    rw [glwpLoop] at h
    by_cases hfr : frontier.isEmpty
    · rw [if_pos hfr] at h
      have : ([] : List Nat) = res := by simpa using h
      subst this
      cases hx
    · rw [if_neg hfr] at h
      simp only [] at h
      cases hrec : glwpLoop fuel children prop (glwpStep children prop frontier).1 with
      | none => rw [hrec] at h; cases h
      | some rest =>
        rw [hrec] at h
        simp at h
        subst h
        rcases List.mem_append.mp hx with h' | h'
        · exact glwpStep_leaves h'
        · exact ih hrec h'

/-- C7 counterexample: child 1 of the expanded root 0 carries `prop = false`;
the claim says such a node "is emitted as a leaf of the filtered view", but
the code excludes it entirely: the result is `[2]` and 1 is not in it. -/
theorem claim_C7_counterexample :
    get_leaves_with_prop [(0, [1, 2])] 0 [(0, true), (1, false), (2, true)] =
      some [2] ∧
    dlookup [(0, [1, 2])] 0 = some [1, 2] ∧
    dlookup [(0, true), (1, false), (2, true)] 1 = some false ∧
    (1 : Nat) ∉ [2] :=
  ⟨rfl, rfl, rfl, by decide⟩

/-- C7 amended: with a binary `prop`, descent continues only through nodes
whose `prop` value is true; a node whose property is false or missing is
excluded from the filtered view entirely (neither descended into nor
emitted); every emitted leaf satisfies the predicate and either has no
children entry or has no qualifying child; and if `node` itself does not
satisfy the predicate (missing or false), an empty result is returned (with
a warning, not modelled). -/
theorem claim_C7 :
    (∀ (children : Childhood) (node : Nat) (prop : BinaryNodeProperty),
      propTrue prop node = false →
      get_leaves_with_prop children node prop = some []) ∧
    (∀ (children : Childhood) (node : Nat) (prop : BinaryNodeProperty)
        (res : List Nat) (x : Nat),
      get_leaves_with_prop children node prop = some res → x ∈ res →
      propTrue prop x = true ∧
        (dlookup children x = none ∨
          ∃ cs, dlookup children x = some cs ∧
            ∀ c ∈ cs, propTrue prop c = false)) := by
  constructor
  · intro children node prop hfalse
    cases hl : dlookup prop node with
    | none => simp only [get_leaves_with_prop, hl]
    | some b =>
      cases b with
      | false => simp only [get_leaves_with_prop, hl]
      | true =>
        exfalso
        rw [propTrue, hl] at hfalse
        simp at hfalse
  · intro children node prop res x h hx
    cases hl : dlookup prop node with
    | none =>
      rw [get_leaves_with_prop, hl] at h
      have : ([] : List Nat) = res := by simpa using h
      subst this
      cases hx
    | some b =>
      cases b with
      | false =>
        rw [get_leaves_with_prop, hl] at h
        have : ([] : List Nat) = res := by simpa using h
        subst this
        cases hx
      | true =>
        rw [get_leaves_with_prop, hl] at h
        cases hc : dlookup children node with
        | none =>
          rw [hc] at h
          have : [node] = res := by simpa using h
          subst this
          simp at hx
          subst hx
          refine ⟨by rw [propTrue, hl]; rfl, Or.inl hc⟩
        | some cs0 =>
          rw [hc] at h
          exact glwpLoop_leaves h hx

/-- Witness for C7: on the counterexample input, the root fails the
predicate in one instance (empty result) and the emitted leaf 2 satisfies
the amended characterization in the other. -/
theorem claim_C7_witness :
    get_leaves_with_prop [(0, [1, 2])] 5 [(0, true), (1, false), (2, true)] =
      some [] ∧
    (propTrue [(0, true), (1, false), (2, true)] 2 = true ∧
      (dlookup [(0, [1, 2])] 2 = none ∨
        ∃ cs, dlookup [(0, [1, 2])] 2 = some cs ∧
          ∀ c ∈ cs, propTrue [(0, true), (1, false), (2, true)] c = false)) :=
  ⟨claim_C7.1 [(0, [1, 2])] 5 [(0, true), (1, false), (2, true)] (by decide),
   claim_C7.2 [(0, [1, 2])] 0 [(0, true), (1, false), (2, true)] [2] 2
     rfl (by decide)⟩

/-! ### Claim C8 (threshold cuts) -/

/-- Nodes reachable from `root` by descending through the child map. -/
inductive ReachC (children : Childhood) (root : Nat) : Nat → Prop
  | refl : ReachC children root root
  | step {n : Nat} {cs : List Nat} {c : Nat} :
      ReachC children root n → dlookup children n = some cs → c ∈ cs →
      ReachC children root c

theorem mem_expandCandidates {children : Childhood} {cut acc : List Nat} {x : Nat} :
    x ∈ cut.foldl
        (fun acc node =>
          match dlookup children node with
          | some cs => acc ++ cs
          | none => acc) acc ↔
      x ∈ acc ∨ ∃ n ∈ cut, ∃ cs, dlookup children n = some cs ∧ x ∈ cs := by
  induction cut generalizing acc with
  | nil => simp
  | cons m rest ih =>
    rw [List.foldl_cons]
    cases hm : dlookup children m with
    | none =>
      rw [ih]
      constructor
      · rintro (h | ⟨n, hn, cs, hcs, hx⟩)
        · exact Or.inl h
        · exact Or.inr ⟨n, List.mem_cons_of_mem _ hn, cs, hcs, hx⟩
      · rintro (h | ⟨n, hn, cs, hcs, hx⟩)
        · exact Or.inl h
        · rcases List.mem_cons.mp hn with rfl | hn'
          · rw [hm] at hcs; cases hcs
          · exact Or.inr ⟨n, hn', cs, hcs, hx⟩
    | some cs0 =>
      rw [ih]
      constructor
      · rintro (h | ⟨n, hn, cs, hcs, hx⟩)
        · rcases List.mem_append.mp h with h' | h'
          · exact Or.inl h'
          · exact Or.inr ⟨m, List.mem_cons_self _ _, cs0, hm, h'⟩
        · exact Or.inr ⟨n, List.mem_cons_of_mem _ hn, cs, hcs, hx⟩
      · rintro (h | ⟨n, hn, cs, hcs, hx⟩)
        · exact Or.inl (List.mem_append_left _ h)
        · rcases List.mem_cons.mp hn with rfl | hn'
          · rw [hm] at hcs
            cases hcs
            exact Or.inl (List.mem_append_right _ hx)
          · exact Or.inr ⟨n, hn', cs, hcs, hx⟩

theorem mem_expand_iff {cut : List Nat} {children : Childhood}
    {prop : NumericalNodeProperty} {th : Int} {c : Nat} :
    c ∈ expand_on_property cut children prop th ↔
      ((∃ n ∈ cut, ∃ cs, dlookup children n = some cs ∧ c ∈ cs) ∧
        ∃ v, dlookup prop c = some v ∧ th ≤ v) := by
  rw [expand_on_property]
  rw [List.mem_filter]
  rw [mem_expandCandidates]
  constructor
  · rintro ⟨h1, h2⟩
    rcases h1 with h1 | h1
    · cases h1
    · refine ⟨h1, ?_⟩
      cases hv : dlookup prop c with
      | none => rw [hv] at h2; cases h2
      | some v =>
        rw [hv] at h2
        exact ⟨v, rfl, by simpa using h2⟩
  · rintro ⟨h1, v, hv, hth⟩
    exact ⟨Or.inr h1, by rw [hv]; simpa using hth⟩

theorem expand_nil {children : Childhood} {prop : NumericalNodeProperty}
    {th : Int} : expand_on_property [] children prop th = [] := rfl

/-- The iterated frontiers of the cut loop. -/
def expandIter (children : Childhood) (prop : NumericalNodeProperty) (th : Int)
    (i : Nat) (rem : List Nat) : List Nat :=
  (fun l => expand_on_property l children prop th)^[i] rem

theorem expandIter_zero {children prop th rem} :
    expandIter children prop th 0 rem = rem := rfl

theorem expandIter_succ {children prop th i rem} :
    expandIter children prop th (i + 1) rem =
      expandIter children prop th i (expand_on_property rem children prop th) := by
  rw [expandIter, Function.iterate_succ_apply]
  rfl

theorem expandIter_succ' {children prop th i rem} :
    expandIter children prop th (i + 1) rem =
      expand_on_property (expandIter children prop th i rem) children prop th := by
  rw [expandIter, Function.iterate_succ_apply']
  rfl

theorem expandIter_nil {children prop th} (i : Nat) :
    expandIter children prop th i [] = [] := by
  induction i with
  | zero => rfl
  | succ i ih => rw [expandIter_succ, expand_nil, ih]

/-- Everything in any iterated frontier ends up in a terminating cut. -/
theorem cutLoop_mem_iter {fuel : Nat} {children : Childhood}
    {prop : NumericalNodeProperty} {th : Int} {acc : Finset Nat}
    {rem : List Nat} {res : Finset Nat}
    (h : cutLoop fuel children prop th acc rem = some res) :
    ∀ i x, x ∈ expandIter children prop th i rem → x ∈ res := by
  induction fuel generalizing acc rem with
  | zero =>
    intro i x hx
    rw [cutLoop] at h
    by_cases hrem : rem.isEmpty
    · rw [List.isEmpty_iff] at hrem
      subst hrem
      rw [expandIter_nil] at hx
      cases hx
    · rw [if_neg hrem] at h
      cases h
  | succ fuel ih =>
    intro i x hx
    rw [cutLoop] at h
    by_cases hrem : rem.isEmpty
    · rw [List.isEmpty_iff] at hrem
      subst hrem
      rw [expandIter_nil] at hx
      cases hx
    · rw [if_neg hrem] at h
      cases i with
      | zero =>
        rw [expandIter_zero] at hx
        exact (cutLoop_subset h).1
          (Finset.mem_union_right _ (List.mem_toFinset.mpr hx))
      | succ i =>
        rw [expandIter_succ] at hx
        exact ih h i x hx

/-- Everything in a terminating cut comes from the accumulator or some
iterated frontier. -/
theorem cutLoop_sound {fuel : Nat} {children : Childhood}
    {prop : NumericalNodeProperty} {th : Int} {acc : Finset Nat}
    {rem : List Nat} {res : Finset Nat}
    (h : cutLoop fuel children prop th acc rem = some res) :
    ∀ x ∈ res, x ∈ acc ∨ ∃ i, x ∈ expandIter children prop th i rem := by
  induction fuel generalizing acc rem with
  | zero =>
    intro x hx
    rw [cutLoop] at h
    by_cases hrem : rem.isEmpty
    · rw [if_pos hrem] at h
      have : acc = res := by simpa using h
      subst this
      exact Or.inl hx
    · rw [if_neg hrem] at h
      cases h
  | succ fuel ih =>
    intro x hx
    rw [cutLoop] at h
    by_cases hrem : rem.isEmpty
    · rw [if_pos hrem] at h
      have : acc = res := by simpa using h
      subst this
      exact Or.inl hx
    · rw [if_neg hrem] at h
      rcases ih h x hx with hx' | ⟨i, hx'⟩
      · rcases Finset.mem_union.mp hx' with hx'' | hx''
        · exact Or.inl hx''
        · exact Or.inr ⟨0, by rw [expandIter_zero]; exact List.mem_toFinset.mp hx''⟩
      · exact Or.inr ⟨i + 1, by rw [expandIter_succ]; exact hx'⟩

/-- If some iterated frontier is empty within the fuel budget, the loop
terminates. -/
theorem cutLoop_terminates {children : Childhood} {prop : NumericalNodeProperty}
    {th : Int} :
    ∀ (fuel j : Nat) (acc : Finset Nat) (rem : List Nat),
      expandIter children prop th j rem = [] → j ≤ fuel →
      (cutLoop fuel children prop th acc rem).isSome := by
  intro fuel
  induction fuel with
  | zero =>
    intro j acc rem hj hle
    have : j = 0 := by omega
    subst this
    rw [expandIter_zero] at hj
    subst hj
    rw [cutLoop]
    simp
  | succ fuel ih =>
    intro j acc rem hj hle
    rw [cutLoop]
    by_cases hrem : rem.isEmpty
    · rw [if_pos hrem]; simp
    · rw [if_neg hrem]
      cases j with
      | zero =>
        rw [expandIter_zero] at hj
        subst hj
        simp at hrem
      | succ j =>
        rw [expandIter_succ] at hj
        exact ih j _ _ hj (by omega)

/-- Ranks strictly decrease from frontier to frontier, so frontiers empty
out below rank zero. -/
theorem expandIter_rank {children : Childhood} {prop : NumericalNodeProperty}
    {th : Int} {r : Nat → Nat}
    (hrk : ∀ n cs c, dlookup children n = some cs → c ∈ cs → r c < r n) :
    ∀ (i : Nat) (l : List Nat) (K : Nat), (∀ x ∈ l, r x < K) →
      ∀ x ∈ expandIter children prop th i l, r x + i < K := by
  intro i
  induction i with
  | zero =>
    intro l K hl x hx
    rw [expandIter_zero] at hx
    simpa using hl x hx
  | succ i ih =>
    intro l K hl x hx
    rw [expandIter_succ] at hx
    have hexp : ∀ y ∈ expand_on_property l children prop th, r y < K - 1 := by
      intro y hy
      obtain ⟨⟨n, hn, cs, hcs, hyc⟩, _⟩ := mem_expand_iff.mp hy
      have h1 := hrk n cs y hcs hyc
      have h2 := hl n hn
      omega
    have := ih _ (K - 1) hexp x hx
    have hKpos : ∀ y ∈ expand_on_property l children prop th, 1 ≤ K := by
      intro y hy
      obtain ⟨⟨n, hn, cs, hcs, hyc⟩, _⟩ := mem_expand_iff.mp hy
      have h2 := hl n hn
      omega
    -- x is in an iterate of the expansion; if the expansion is empty so is
    -- the iterate
    by_cases hne : expand_on_property l children prop th = []
    · rw [hne, expandIter_nil] at hx
      cases hx
    · obtain ⟨y, hy⟩ := List.exists_mem_of_ne_nil _ hne
      have := hKpos y hy
      omega

theorem expandIter_empty_of_rank {children : Childhood}
    {prop : NumericalNodeProperty} {th : Int} {r : Nat → Nat}
    (hrk : ∀ n cs c, dlookup children n = some cs → c ∈ cs → r c < r n)
    (l : List Nat) (K : Nat) (hl : ∀ x ∈ l, r x < K) :
    expandIter children prop th K l = [] := by
  rw [List.eq_nil_iff_forall_not_mem]
  intro x hx
  have := expandIter_rank hrk K l K hl x hx
  omega

theorem iter_mem_reach {children : Childhood} {prop : NumericalNodeProperty}
    {th : Int} {root : Nat} :
    ∀ (i : Nat) (x : Nat), x ∈ expandIter children prop th i [root] →
      ReachC children root x := by
  intro i
  induction i with
  | zero =>
    intro x hx
    rw [expandIter_zero] at hx
    simp at hx
    subst hx
    exact ReachC.refl
  | succ i ih =>
    intro x hx
    rw [expandIter_succ'] at hx
    obtain ⟨⟨n, hn, cs, hcs, hxc⟩, _⟩ := mem_expand_iff.mp hx
    exact ReachC.step (ih n hn) hcs hxc

theorem reach_mem_iter {children : Childhood} {prop : NumericalNodeProperty}
    {th : Int} {root : Nat}
    (hcovth : ∀ n, ReachC children root n →
      ∃ w, dlookup prop n = some w ∧ th ≤ w) :
    ∀ x, ReachC children root x →
      ∃ i, x ∈ expandIter children prop th i [root] := by
  intro x hx
  induction hx with
  | refl => exact ⟨0, by rw [expandIter_zero]; simp⟩
  | @step n cs c hn hcs hc ih =>
    obtain ⟨i, hi⟩ := ih
    refine ⟨i + 1, ?_⟩
    rw [expandIter_succ']
    exact mem_expand_iff.mpr
      ⟨⟨n, hi, cs, hcs, hc⟩, hcovth c (ReachC.step hn hcs hc)⟩

theorem ReachC.mem_cases {children : Childhood} {root n : Nat}
    (h : ReachC children root n) :
    n = root ∨ ∃ p ∈ children, n ∈ p.2 := by
  induction h with
  | refl => exact Or.inl rfl
  | step hn hcs hc ih => exact Or.inr ⟨_, dlookup_mem hcs, hc⟩

theorem cutLoop_one_round {fuel : Nat} {children : Childhood}
    {prop : NumericalNodeProperty} {th : Int} {acc : Finset Nat}
    {rem : List Nat}
    (hexp : expand_on_property rem children prop th = []) (hne : rem ≠ []) :
    cutLoop (fuel + 2) children prop th acc rem = some (acc ∪ rem.toFinset) := by
  rw [cutLoop, if_neg (by simpa [List.isEmpty_iff] using hne), hexp, cutLoop]
  simp

/-- C8 counterexample: in the tree with root 2 over leaves 0, 1 and
`prop = {2: 5, 0: 100, 1: 100}`, the threshold 10 is strictly above the
property value of every internal node (only node 2, value 5), yet the cut is
`{2, 0, 1}`, not `{root}`: the descent gate tests the children (here leaves
with large values), not the internal nodes. -/
theorem claim_C8_counterexample :
    cut_on_property [(0, 2), (1, 2)] [(2, [0, 1])]
      [(2, 5), (0, 100), (1, 100)] 10 = some {2, 0, 1} ∧
    dlookup [(2, 5), (0, 100), (1, 100)] 2 = some 5 ∧
    ((5 : Int) < 10) ∧
    ({2, 0, 1} : Finset Nat) ≠ {2} :=
  ⟨by decide, rfl, by decide, by decide⟩

/-- C8 amended: for a single-rooted tree whose childhood is acyclic
(witnessed by a ranking function bounded by the number of internal nodes):
(1) when every reachable node carries `prop` and the threshold is strictly
below every value of `prop`, the cut is exactly the set of all nodes from
the root down to the leaves (the nodes reachable through `children`);
(2) when the threshold is strictly above every value of `prop` on nodes
other than the root, the cut is exactly `{root}`. -/
theorem claim_C8 :
    (∀ (parents : Parenthood) (children : Childhood)
        (prop : NumericalNodeProperty) (threshold : Int) (k v : Nat)
        (rest : Parenthood) (root : Nat) (r : Nat → Nat),
      parents = (k, v) :: rest →
      get_root parents k = some root →
      (∀ p ∈ children, ∀ c ∈ p.2, r c < r p.1) →
      r root ≤ children.length →
      (∀ n, ReachC children root n → ∃ w, dlookup prop n = some w) →
      (∀ p ∈ prop, threshold < p.2) →
      ∃ res, cut_on_property parents children prop threshold = some res ∧
        ∀ x, x ∈ res ↔ ReachC children root x) ∧
    (∀ (parents : Parenthood) (children : Childhood)
        (prop : NumericalNodeProperty) (threshold : Int) (k v : Nat)
        (rest : Parenthood) (root : Nat) (r : Nat → Nat),
      parents = (k, v) :: rest →
      get_root parents k = some root →
      (∀ p ∈ children, ∀ c ∈ p.2, r c < r p.1) →
      (∀ p ∈ prop, p.1 ≠ root → p.2 < threshold) →
      cut_on_property parents children prop threshold = some {root}) := by
  constructor
  · intro parents children prop threshold k v rest root r hp hroot hrkm hbound
      hcov hth
    subst hp
    have hrk : ∀ n cs c, dlookup children n = some cs → c ∈ cs → r c < r n :=
      fun n cs c hcs hc => hrkm (n, cs) (dlookup_mem hcs) c hc
    have hcovth : ∀ n, ReachC children root n →
        ∃ w, dlookup prop n = some w ∧ threshold ≤ w := by
      intro n hn
      obtain ⟨w, hw⟩ := hcov n hn
      exact ⟨w, hw, le_of_lt (hth (n, w) (dlookup_mem hw))⟩
    have hempty : expandIter children prop threshold (r root + 1) [root] = [] :=
      expandIter_empty_of_rank hrk [root] (r root + 1)
        (by intro x hx; simp at hx; subst hx; omega)
    have hterm :
        (cutLoop (children.length + 2) children prop threshold ∅ [root]).isSome :=
      cutLoop_terminates _ (r root + 1) ∅ [root] hempty (by omega)
    obtain ⟨res, hres⟩ := Option.isSome_iff_exists.mp hterm
    refine ⟨res, ?_, ?_⟩
    · simp only [cut_on_property, hroot]
      exact hres
    · intro x
      constructor
      · intro hx
        rcases cutLoop_sound hres x hx with hx' | ⟨i, hx'⟩
        · exact absurd hx' (Finset.not_mem_empty x)
        · exact iter_mem_reach i x hx'
      · intro hx
        obtain ⟨i, hi⟩ := reach_mem_iter hcovth x hx
        exact cutLoop_mem_iter hres i x hi
  · intro parents children prop threshold k v rest root r hp hroot hrkm hth2
    subst hp
    have hrk : ∀ n cs c, dlookup children n = some cs → c ∈ cs → r c < r n :=
      fun n cs c hcs hc => hrkm (n, cs) (dlookup_mem hcs) c hc
    have hexp : expand_on_property [root] children prop threshold = [] := by
      rw [List.eq_nil_iff_forall_not_mem]
      intro c hc
      obtain ⟨⟨n, hn, cs, hcs, hcc⟩, w, hw, hthw⟩ := mem_expand_iff.mp hc
      simp at hn
      rw [hn] at hcs
      have hlt := hrk root cs c hcs hcc
      have hne : c ≠ root := by
        intro hceq
        rw [hceq] at hlt
        omega
      have := hth2 (c, w) (dlookup_mem hw) hne
      omega
    simp only [cut_on_property, hroot]
    rw [cutLoop_one_round hexp (by simp)]
    simp

/-- Witness for C8: the chain tree `parents = {0: 1}`,
`children = {1: [0]}`.  With `prop = {1: 5, 0: 5}` and threshold 0 the cut
is exactly the reachable set; with `prop = {0: 5}` and threshold 10 the cut
is exactly `{1}`. -/
theorem claim_C8_witness :
    (∃ res, cut_on_property [(0, 1)] [(1, [0])] [(1, 5), (0, 5)] 0 = some res ∧
      ∀ x, x ∈ res ↔ ReachC [(1, [0])] 1 x) ∧
    cut_on_property [(0, 1)] [(1, [0])] [(0, 5)] 10 = some {1} := by
  constructor
  · refine claim_C8.1 [(0, 1)] [(1, [0])] [(1, 5), (0, 5)] 0 0 1 [] 1
      (fun x => x) rfl (by decide) (by decide) (by decide) ?_ (by decide)
    intro n hn
    rcases hn.mem_cases with rfl | ⟨p, hp, hnp⟩
    · exact ⟨5, rfl⟩
    · simp at hp
      subst hp
      simp at hnp
      subst hnp
      exact ⟨5, rfl⟩
  · exact claim_C8.2 [(0, 1)] [(1, [0])] [(0, 5)] 10 0 1 [] 1 (fun x => x)
      rfl (by decide) (by decide) (by decide)

/-! ### Claim C2: graph connectivity

`conn es x y` is the equivalence closure of adjacency through the edge list
`es` — the mathematical notion of connectivity that the Kruskal builder's
union-find tracks. -/

inductive conn (es : List Edge) : Nat → Nat → Prop
  | base {x y : Nat} : (x, y) ∈ es ∨ (y, x) ∈ es → conn es x y
  | refl (x : Nat) : conn es x x
  | symm {x y : Nat} : conn es x y → conn es y x
  | trans {x y z : Nat} : conn es x y → conn es y z → conn es x z

theorem conn_mono {es es' : List Edge} (hsub : ∀ e ∈ es, e ∈ es')
    {x y : Nat} (h : conn es x y) : conn es' x y := by
  induction h with
  | base hmem =>
    rcases hmem with hm | hm
    · exact conn.base (Or.inl (hsub _ hm))
    · exact conn.base (Or.inr (hsub _ hm))
  | refl x => exact conn.refl x
  | symm _ ih => exact ih.symm
  | trans _ _ ih1 ih2 => exact ih1.trans ih2

theorem conn_nil {x y : Nat} : conn [] x y ↔ x = y := by
  constructor
  · intro h
    induction h with
    | base hmem => rcases hmem with hm | hm <;> cases hm
    | refl x => rfl
    | symm _ ih => exact ih.symm
    | trans _ _ ih1 ih2 => exact ih1.trans ih2
  · rintro rfl
    exact conn.refl x

/-- The target disjunction of the closure-extension lemma. -/
def connExt (es : List Edge) (a b x y : Nat) : Prop :=
  conn es x y ∨ (conn es x a ∧ conn es b y) ∨ (conn es x b ∧ conn es a y)

theorem connExt_refl (es : List Edge) (a b x : Nat) : connExt es a b x x :=
  Or.inl (conn.refl x)

theorem connExt_symm {es : List Edge} {a b x y : Nat}
    (h : connExt es a b x y) : connExt es a b y x := by
  rcases h with h | ⟨h1, h2⟩ | ⟨h1, h2⟩
  · exact Or.inl h.symm
  · exact Or.inr (Or.inr ⟨h2.symm, h1.symm⟩)
  · exact Or.inr (Or.inl ⟨h2.symm, h1.symm⟩)

theorem connExt_trans {es : List Edge} {a b x y z : Nat}
    (h1 : connExt es a b x y) (h2 : connExt es a b y z) : connExt es a b x z := by
  rcases h1 with h1 | ⟨h1a, h1b⟩ | ⟨h1a, h1b⟩ <;>
    rcases h2 with h2 | ⟨h2a, h2b⟩ | ⟨h2a, h2b⟩
  · exact Or.inl (h1.trans h2)
  · exact Or.inr (Or.inl ⟨h1.trans h2a, h2b⟩)
  · exact Or.inr (Or.inr ⟨h1.trans h2a, h2b⟩)
  · exact Or.inr (Or.inl ⟨h1a, h1b.trans h2⟩)
  · exact Or.inl ((h1a.trans (h1b.trans h2a).symm).trans h2b)
  · exact Or.inl (h1a.trans h2b)
  · exact Or.inr (Or.inr ⟨h1a, h1b.trans h2⟩)
  · exact Or.inl (h1a.trans h2b)
  · exact Or.inl ((h1a.trans (h1b.trans h2a).symm).trans h2b)

theorem conn_append_iff {es : List Edge} {a b x y : Nat} :
    conn (es ++ [(a, b)]) x y ↔ connExt es a b x y := by
  constructor
  · intro h
    induction h with
    | @base u v hmem =>
      rcases hmem with hm | hm
      · rcases List.mem_append.mp hm with hm' | hm'
        · exact Or.inl (conn.base (Or.inl hm'))
        · simp at hm'
          obtain ⟨rfl, rfl⟩ := hm'
          exact Or.inr (Or.inl ⟨conn.refl _, conn.refl _⟩)
      · rcases List.mem_append.mp hm with hm' | hm'
        · exact Or.inl (conn.base (Or.inr hm'))
        · simp at hm'
          obtain ⟨rfl, rfl⟩ := hm'
          exact Or.inr (Or.inr ⟨conn.refl _, conn.refl _⟩)
    | refl x => exact connExt_refl es a b x
    | symm _ ih => exact connExt_symm ih
    | trans _ _ ih1 ih2 => exact connExt_trans ih1 ih2
  · intro h
    have hsub : ∀ e ∈ es, e ∈ es ++ [(a, b)] := fun e he =>
      List.mem_append_left _ he
    have hab : conn (es ++ [(a, b)]) a b :=
      conn.base (Or.inl (List.mem_append_right _ (List.mem_singleton.mpr rfl)))
    rcases h with h | ⟨h1, h2⟩ | ⟨h1, h2⟩
    · exact conn_mono hsub h
    · exact ((conn_mono hsub h1).trans hab).trans (conn_mono hsub h2)
    · exact ((conn_mono hsub h1).trans hab.symm).trans (conn_mono hsub h2)

/-- Adding an edge between already-connected endpoints does not change
connectivity. -/
theorem conn_append_redundant {es : List Edge} {a b : Nat}
    (hab : conn es a b) {x y : Nat} :
    conn (es ++ [(a, b)]) x y ↔ conn es x y := by
  rw [conn_append_iff]
  constructor
  · rintro (h | ⟨h1, h2⟩ | ⟨h1, h2⟩)
    · exact h
    · exact (h1.trans hab).trans h2
    · exact (h1.trans hab.symm).trans h2
  · exact Or.inl

/-- Connected distinct nodes are both incident to some listed edge. -/
theorem conn_ne_exists_mem {es : List Edge} {x y : Nat} (h : conn es x y)
    (hne : x ≠ y) :
    (∃ e ∈ es, x = e.1 ∨ x = e.2) ∧ (∃ e ∈ es, y = e.1 ∨ y = e.2) := by
  induction h with
  | @base u v hmem =>
    rcases hmem with hm | hm
    · exact ⟨⟨(u, v), hm, Or.inl rfl⟩, ⟨(u, v), hm, Or.inr rfl⟩⟩
    · exact ⟨⟨(v, u), hm, Or.inr rfl⟩, ⟨(v, u), hm, Or.inl rfl⟩⟩
  | refl x => exact absurd rfl hne
  | @symm u v h ih =>
    obtain ⟨h1, h2⟩ := ih (fun hc => hne hc.symm)
    exact ⟨h2, h1⟩
  | @trans u v w h1 h2 ih1 ih2 =>
    by_cases huv : u = v
    · subst huv
      exact ih2 hne
    · obtain ⟨hu, hv⟩ := ih1 huv
      refine ⟨hu, ?_⟩
      by_cases hvw : v = w
      · subst hvw
        exact hv
      · exact (ih2 hvw).2

/-! ### Claim C2: union-find invariant of `kruskal_edges` -/

theorem ufUnion_eq_iff {uf : Nat → Nat} {a b : Nat} (x y : Nat) :
    ufUnion uf a b x = ufUnion uf a b y ↔
      uf x = uf y ∨ (uf x = uf a ∧ uf y = uf b) ∨
        (uf x = uf b ∧ uf y = uf a) := by
  simp only [ufUnion]
  by_cases hx : uf x = uf b
  · rw [if_pos hx]
    by_cases hy : uf y = uf b
    · rw [if_pos hy]
      constructor
      · intro _
        exact Or.inl (hx.trans hy.symm)
      · intro _
        rfl
    · rw [if_neg hy]
      constructor
      · intro h
        exact Or.inr (Or.inr ⟨hx, h.symm⟩)
      · rintro (h | ⟨hh1, hh2⟩ | ⟨hh1, hh2⟩)
        · exact absurd (h.symm.trans hx) hy
        · exact absurd hh2 hy
        · exact hh2.symm
  · rw [if_neg hx]
    by_cases hy : uf y = uf b
    · rw [if_pos hy]
      constructor
      · intro h
        exact Or.inr (Or.inl ⟨h, hy⟩)
      · rintro (h | ⟨hh1, hh2⟩ | ⟨hh1, hh2⟩)
        · exact absurd (h.trans hy) hx
        · exact hh1
        · exact absurd hh1 hx
    · rw [if_neg hy]
      constructor
      · exact Or.inl
      · rintro (h | ⟨hh1, hh2⟩ | ⟨hh1, hh2⟩)
        · exact h
        · exact absurd hh2 hy
        · exact absurd hh1 hx

/-- The loop invariant of `kruskal_edges`: the union-find classes match
connectivity over the processed prefix; the class count balances the number
of retained edges against the number of leaves; each retained edge joined
two components that were separate at its point of retention; retained edges
come from the processed prefix and generate the same connectivity. -/
structure KEInv (E : Finset Nat) (processed : List Edge) (uf : Nat → Nat)
    (ke : List Edge) (kw : List Int) : Prop where
  classes : ∀ x y, uf x = uf y ↔ conn processed x y
  count : (E.image uf).card + ke.length = E.card
  good : ∀ (i : Nat) (hi : i < ke.length),
    ¬ conn (ke.take i) (ke.get ⟨i, hi⟩).1 (ke.get ⟨i, hi⟩).2
  sub : ∀ e ∈ ke, e ∈ processed
  connke : ∀ x y, conn ke x y ↔ conn processed x y
  kwlen : kw.length = ke.length

theorem keStep_inv {weights : Edge → Int} {E : Finset Nat}
    {processed : List Edge} {uf : Nat → Nat} {ke : List Edge} {kw : List Int}
    {e : Edge} (hInv : KEInv E processed uf ke kw)
    (h1 : e.1 ∈ E) (h2 : e.2 ∈ E) :
    KEInv E (processed ++ [e]) (keStep weights (uf, ke, kw) e).1
      (keStep weights (uf, ke, kw) e).2.1
      (keStep weights (uf, ke, kw) e).2.2 := by
  obtain ⟨a, b⟩ := e
  simp only at h1 h2
  by_cases hcond : uf a = uf b
  · have hstep : keStep weights (uf, ke, kw) (a, b) = (uf, ke, kw) := by
      simp [keStep, hcond]
    rw [hstep]
    show KEInv E (processed ++ [(a, b)]) uf ke kw
    have hconnab : conn processed a b := (hInv.classes _ _).mp hcond
    have hiff : ∀ x y, conn (processed ++ [(a, b)]) x y ↔ conn processed x y :=
      fun x y => conn_append_redundant hconnab
    exact { classes := fun x y => (hInv.classes x y).trans (hiff x y).symm
            count := hInv.count
            good := hInv.good
            sub := fun e' he' => List.mem_append_left _ (hInv.sub e' he')
            connke := fun x y => (hInv.connke x y).trans (hiff x y).symm
            kwlen := hInv.kwlen }
  · have hstep : keStep weights (uf, ke, kw) (a, b) =
        (ufUnion uf a b, ke ++ [(a, b)], kw ++ [weights (a, b)]) := by
      simp [keStep, hcond]
    rw [hstep]
    show KEInv E (processed ++ [(a, b)]) (ufUnion uf a b) (ke ++ [(a, b)])
      (kw ++ [weights (a, b)])
    have hnab : ¬ conn processed a b := fun hc => hcond ((hInv.classes _ _).mpr hc)
    refine { classes := ?_, count := ?_, good := ?_, sub := ?_, connke := ?_,
             kwlen := ?_ }
    · intro x y
      rw [ufUnion_eq_iff x y, conn_append_iff]
      simp only [connExt, hInv.classes]
      constructor
      · rintro (h | ⟨hp, hq⟩ | ⟨hp, hq⟩)
        · exact Or.inl h
        · exact Or.inr (Or.inl ⟨hp, hq.symm⟩)
        · exact Or.inr (Or.inr ⟨hp, hq.symm⟩)
      · rintro (h | ⟨hp, hq⟩ | ⟨hp, hq⟩)
        · exact Or.inl h
        · exact Or.inr (Or.inl ⟨hp, hq.symm⟩)
        · exact Or.inr (Or.inr ⟨hp, hq.symm⟩)
    · have himg : E.image (ufUnion uf a b) = (E.image uf).erase (uf b) := by
        ext z
        rw [Finset.mem_erase]
        constructor
        · intro hz
          obtain ⟨v, hv, hzv⟩ := Finset.mem_image.mp hz
          rw [ufUnion] at hzv
          by_cases hvb : uf v = uf b
          · rw [if_pos hvb] at hzv
            subst hzv
            exact ⟨hcond, Finset.mem_image_of_mem _ h1⟩
          · rw [if_neg hvb] at hzv
            subst hzv
            exact ⟨hvb, Finset.mem_image_of_mem _ hv⟩
        · rintro ⟨hzb, hz⟩
          obtain ⟨v, hv, hzv⟩ := Finset.mem_image.mp hz
          refine Finset.mem_image.mpr ⟨v, hv, ?_⟩
          have hvb : ¬ uf v = uf b := by
            rw [hzv]
            exact hzb
          simp only [ufUnion]
          rw [if_neg hvb]
          exact hzv
      have hbmem : uf b ∈ E.image uf := Finset.mem_image_of_mem _ h2
      have hcd := Finset.card_erase_of_mem hbmem
      have hpos : 1 ≤ (E.image uf).card := Finset.card_pos.mpr ⟨_, hbmem⟩
      have := hInv.count
      rw [himg, hcd]
      simp only [List.length_append, List.length_singleton]
      omega
    · intro i hi
      have hi' : i < ke.length + 1 := by simpa using hi
      by_cases hik : i < ke.length
      · have ht : (ke ++ [(a, b)]).take i = ke.take i := by
          rw [List.take_append_of_le_length (le_of_lt hik)]
        have hg : (ke ++ [(a, b)]).get ⟨i, hi⟩ = ke.get ⟨i, hik⟩ := by
          rw [List.get_eq_getElem, List.get_eq_getElem,
            List.getElem_append_left hik]
        rw [ht, hg]
        exact hInv.good i hik
      · have hieq : i = ke.length := by omega
        subst hieq
        have ht : (ke ++ [(a, b)]).take ke.length = ke := List.take_left ke _
        have hg : (ke ++ [(a, b)]).get ⟨ke.length, hi⟩ = (a, b) := by
          simp
        rw [ht, hg]
        intro hc
        exact hnab ((hInv.connke _ _).mp hc)
    · intro e' he'
      rcases List.mem_append.mp he' with h' | h'
      · exact List.mem_append_left _ (hInv.sub e' h')
      · exact List.mem_append_right _ h'
    · intro x y
      rw [conn_append_iff, conn_append_iff]
      rw [connExt, connExt, hInv.connke, hInv.connke, hInv.connke,
        hInv.connke, hInv.connke]
    · simp [hInv.kwlen]

theorem keFold_inv {weights : Edge → Int} {E : Finset Nat} :
    ∀ (es : List Edge) (processed : List Edge) (uf : Nat → Nat)
      (ke : List Edge) (kw : List Int),
      KEInv E processed uf ke kw → (∀ e ∈ es, e.1 ∈ E ∧ e.2 ∈ E) →
      KEInv E (processed ++ es)
        (es.foldl (keStep weights) (uf, ke, kw)).1
        (es.foldl (keStep weights) (uf, ke, kw)).2.1
        (es.foldl (keStep weights) (uf, ke, kw)).2.2 := by
  intro es
  induction es with
  | nil =>
    intro processed uf ke kw hInv _
    simpa using hInv
  | cons e rest ih =>
    intro processed uf ke kw hInv hE
    rw [List.foldl_cons]
    have hstep := @keStep_inv weights E processed uf ke kw e hInv
      (hE e (List.mem_cons_self _ _)).1 (hE e (List.mem_cons_self _ _)).2
    have hrest := ih (processed ++ [e]) (keStep weights (uf, ke, kw) e).1
      (keStep weights (uf, ke, kw) e).2.1 (keStep weights (uf, ke, kw) e).2.2
      hstep (fun e' he' => hE e' (List.mem_cons_of_mem _ he'))
    have heq : processed ++ [e] ++ rest = processed ++ e :: rest := by
      rw [List.append_assoc]
      rfl
    rw [heq] at hrest
    exact hrest

theorem kruskal_edges_spec (edges : List Edge) (weights : Edge → Int) :
    ∃ uf, KEInv (endPts edges)
      (edges.insertionSort (fun a b => weights a ≤ weights b)) uf
      (kruskal_edges edges weights).1 (kruskal_edges edges weights).2 := by
  have hinit : KEInv (endPts edges) [] ufdsInit [] [] :=
    { classes := fun x y => by
        rw [conn_nil]
        exact Iff.rfl
      count := by simp [ufdsInit]
      good := fun i hi => by simp at hi
      sub := fun e he => by cases he
      connke := fun x y => Iff.rfl
      kwlen := rfl }
  have hE : ∀ e ∈ edges.insertionSort (fun a b => weights a ≤ weights b),
      e.1 ∈ endPts edges ∧ e.2 ∈ endPts edges := by
    intro e he
    have he' : e ∈ edges := (List.perm_insertionSort _ edges).mem_iff.mp he
    exact ⟨mem_endPts.mpr ⟨e, he', Or.inl rfl⟩,
      mem_endPts.mpr ⟨e, he', Or.inr rfl⟩⟩
  have := @keFold_inv weights (endPts edges)
    (edges.insertionSort (fun a b => weights a ≤ weights b)) [] ufdsInit [] []
    hinit hE
  exact ⟨_, this⟩

theorem conn_insertionSort_iff {edges : List Edge} {weights : Edge → Int}
    {x y : Nat} :
    conn (edges.insertionSort (fun a b => weights a ≤ weights b)) x y ↔
      conn edges x y := by
  constructor
  · exact conn_mono (fun e he => (List.perm_insertionSort _ edges).mem_iff.mp he)
  · exact conn_mono (fun e he => (List.perm_insertionSort _ edges).mem_iff.mpr he)

/-! ### Claim C2: invariant of the `kruskal_tree` loop -/

theorem dlookup_append_cases {α : Type} {d ext : List (Nat × α)} {k : Nat}
    {v : α} (h : dlookup (d ++ ext) k = some v) :
    dlookup d k = some v ∨ (dlookup d k = none ∧ dlookup ext k = some v) := by
  cases hd : dlookup d k with
  | none =>
    right
    refine ⟨rfl, ?_⟩
    rw [dlookup_append_right ext hd] at h
    exact h
  | some w =>
    left
    rw [dlookup_append_left ext hd] at h
    exact h

theorem dlookup_of_mem_nodup {α : Type} {d : List (Nat × α)}
    (hnd : (dkeys d).Nodup) {k : Nat} {v : α} (h : (k, v) ∈ d) :
    dlookup d k = some v := by
  induction d with
  | nil => cases h
  | cons p rest ih =>
    obtain ⟨k', v'⟩ := p
    have hnd' : (dkeys rest).Nodup ∧ k' ∉ dkeys rest := by
      rw [dkeys, List.map_cons] at hnd
      exact ⟨(List.nodup_cons.mp hnd).2, (List.nodup_cons.mp hnd).1⟩
    rcases List.mem_cons.mp h with heq | hmem
    · rw [Prod.mk.injEq] at heq
      obtain ⟨rfl, rfl⟩ := heq
      simp [dlookup]
    · by_cases hk : k' = k
      · subst hk
        exfalso
        exact hnd'.2 (by
          rw [dkeys]
          exact List.mem_map.mpr ⟨(k', v), hmem, rfl⟩)
      · rw [dlookup, if_neg hk]
        exact ih hnd'.1 hmem

theorem mem_childVals {children : Childhood} {y : Nat} :
    y ∈ children.foldr (fun p s => p.2.toFinset ∪ s) ∅ ↔
      ∃ p ∈ children, y ∈ p.2 := by
  induction children with
  | nil => simp
  | cons p rest ih =>
    simp [ih]

theorem RootIs.eq_or_val {parents : Parenthood} {x r : Nat}
    (h : RootIs parents x r) : r = x ∨ ∃ z, dlookup parents z = some r := by
  obtain ⟨l, hl, hne, hlast⟩ := h
  induction hl generalizing r with
  | @nil x' hx =>
    left
    rw [← hlast]
    simp
  | @cons x' p l' hx hrest ih =>
    have hne' : l' ≠ [] := hrest.ne_nil
    have hlast' : l'.getLast hne' = r := by
      rw [← hlast, List.getLast_cons hne']
    rcases ih hne' hlast' with heq | hval
    · right
      exact ⟨x', by rw [hx, heq]⟩
    · right
      exact hval

/-- Lookups in a dict extend to lookups in the dict with appended fresh
bindings, and root chains transfer when the final root stays unbound. -/
theorem RPath.transfer {d d' : Parenthood}
    (hsome : ∀ y v, dlookup d y = some v → dlookup d' y = some v)
    {x : Nat} {l : List Nat} (h : RPath d x l)
    (hlast : dlookup d' (l.getLast h.ne_nil) = none) : RPath d' x l := by
  induction h with
  | @nil x' hx =>
    exact RPath.nil (by simpa using hlast)
  | @cons x' p l' hx hrest ih =>
    have hne' : l' ≠ [] := hrest.ne_nil
    refine RPath.cons (hsome _ _ hx) (ih ?_)
    rw [← List.getLast_cons hne']
    exact hlast

/-- A root chain extends by one link when the old root gains a parent that
is itself unbound. -/
theorem RPath.transfer_extend {d d' : Parenthood}
    (hsome : ∀ y v, dlookup d y = some v → dlookup d' y = some v)
    {x m : Nat} {l : List Nat} (h : RPath d x l)
    (hr : dlookup d' (l.getLast h.ne_nil) = some m)
    (hm : dlookup d' m = none) : RPath d' x (l ++ [m]) := by
  induction h with
  | @nil x' hx =>
    refine RPath.cons (by simpa using hr) (RPath.nil hm)
  | @cons x' p l' hx hrest ih =>
    have hne' : l' ≠ [] := hrest.ne_nil
    refine RPath.cons (hsome _ _ hx) (ih ?_)
    rw [← List.getLast_cons hne']
    exact hr

theorem getLast_append_singleton {α : Type} (l : List α) (a : α) :
    (l ++ [a]).getLast (by simp) = a := by
  have h1 : (l ++ [a]).getLast? = some a := List.getLast?_concat l
  have h2 := List.getLast?_eq_getLast (l ++ [a]) (by simp)
  rw [h2] at h1
  exact Option.some_injective _ h1

/-- The effect on roots of appending the two fresh parent bindings of one
Kruskal merge: roots `rn1` and `rn2` are redirected to the new internal node
`m`, all other roots are unchanged. -/
theorem rootIs_append_update {parents : Parenthood} {rn1 rn2 m : Nat}
    (hk1 : dlookup parents rn1 = none) (hk2 : dlookup parents rn2 = none)
    (hne : rn1 ≠ rn2) (hm1 : m ≠ rn1) (hm2 : m ≠ rn2)
    (hmk : dlookup parents m = none)
    {x rx : Nat} (hx : RootIs parents x rx) :
    RootIs (parents ++ [(rn1, m), (rn2, m)]) x
      (if rx = rn1 ∨ rx = rn2 then m else rx) := by
  obtain ⟨l, hl, hne', hlast⟩ := hx
  have hsome : ∀ y v, dlookup parents y = some v →
      dlookup (parents ++ [(rn1, m), (rn2, m)]) y = some v :=
    fun y v hy => dlookup_append_left _ hy
  have hmlook : dlookup (parents ++ [(rn1, m), (rn2, m)]) m = none := by
    rw [dlookup_append_right _ hmk]
    simp [dlookup, hm1.symm, hm2.symm]
  by_cases hcase : rx = rn1 ∨ rx = rn2
  · rw [if_pos hcase]
    have hrlook : dlookup (parents ++ [(rn1, m), (rn2, m)])
        (l.getLast hne') = some m := by
      rw [hlast]
      rcases hcase with rfl | rfl
      · rw [dlookup_append_right _ hk1]
        simp [dlookup]
      · rw [dlookup_append_right _ hk2]
        simp [dlookup, hne]
    refine ⟨l ++ [m], RPath.transfer_extend hsome hl hrlook hmlook, by simp, ?_⟩
    exact getLast_append_singleton l m
  · rw [if_neg hcase]
    push_neg at hcase
    have hrlook : dlookup (parents ++ [(rn1, m), (rn2, m)])
        (l.getLast hne') = none := by
      rw [hlast]
      have hrk : dlookup parents rx = none := by
        rw [← hlast]
        exact hl.getLast_lookup hne'
      rw [dlookup_append_right _ hrk]
      simp only [dlookup]
      rw [if_neg (fun h => hcase.1 h.symm), if_neg (fun h => hcase.2 h.symm)]
    exact ⟨l, RPath.transfer hsome hl hrlook, hne', hlast⟩

theorem dkeys_append {α : Type} (d e : List (Nat × α)) :
    dkeys (d ++ e) = dkeys d ++ dkeys e := List.map_append _ _ _

theorem dlookup_pair_cases {rn1 rn2 m x v : Nat}
    (h : dlookup [(rn1, m), (rn2, m)] x = some v) :
    (x = rn1 ∨ x = rn2) ∧ v = m := by
  simp only [dlookup] at h
  by_cases h1 : rn1 = x
  · rw [if_pos h1] at h
    exact ⟨Or.inl h1.symm, (Option.some.inj h).symm⟩
  · rw [if_neg h1] at h
    by_cases h2 : rn2 = x
    · rw [if_pos h2] at h
      exact ⟨Or.inr h2.symm, (Option.some.inj h).symm⟩
    · rw [if_neg h2] at h
      cases h

/-- The ranking function certifying acyclicity of the parent map built by
`kruskal_tree`: internal nodes rank downward as they are created later,
leaves (disjoint from the internal id range) rank above all of them. -/
def ktRank (k x : Nat) : Nat :=
  if 2 * k ≤ x ∧ x < 3 * k then 3 * k - x else 3 * k + 1

/-- The loop invariant of `kruskal_tree` over the processed prefix `pr` of
the retained edges: bookkeeping of the id counter, keys and values of the
parent and child maps, acyclicity via `ktRank`, and the correspondence
between roots of the built forest and connectivity over `pr`. -/
structure KTInv (E : Finset Nat) (k : Nat) (pr : List Edge) (st : KTState) :
    Prop where
  maxn : st.maxNode = 2 * k + pr.length
  klen : st.parents.length = 2 * pr.length
  knodup : (dkeys st.parents).Nodup
  ksub : ∀ x ∈ dkeys st.parents,
    x ∈ E ∨ (2 * k ≤ x ∧ x + 1 < 2 * k + pr.length)
  vals : ∀ x m, dlookup st.parents x = some m →
    2 * k ≤ m ∧ m < 2 * k + pr.length
  childk : dkeys st.children = List.range' (2 * k) pr.length
  childv : ∀ m cs, dlookup st.children m = some cs →
    ∀ c ∈ cs, c ∈ dkeys st.parents
  rank : ∀ x m, dlookup st.parents x = some m → ktRank k m < ktRank k x
  classes : ∀ x y rx ry, x ∈ E → y ∈ E → RootIs st.parents x rx →
    RootIs st.parents y ry → (rx = ry ↔ conn pr x y)

theorem ktStep_inv {E : Finset Nat} {k : Nat} {pr : List Edge} {st : KTState}
    {size : Nat → Int} {a b : Nat} {w : Int}
    (hInv : KTInv E k pr st)
    (hdis : ∀ v ∈ E, v < 2 * k ∨ 3 * k ≤ v)
    (ha : a ∈ E) (hb : b ∈ E)
    (hlt : pr.length < k)
    (hnconn : ¬ conn pr a b) :
    ∃ st', ktStep size st ((a, b), w) = some st' ∧
      KTInv E k (pr ++ [(a, b)]) st' := by
  obtain ⟨rn1, hr1⟩ := exists_rootIs_of_ranking hInv.rank a
  obtain ⟨rn2, hr2⟩ := exists_rootIs_of_ranking hInv.rank b
  have hg1 : get_root st.parents a = some rn1 :=
    get_root_eq_some_iff_rootIs.mpr hr1
  have hg2 : get_root st.parents b = some rn2 :=
    get_root_eq_some_iff_rootIs.mpr hr2
  have hne : rn1 ≠ rn2 := fun hc =>
    hnconn ((hInv.classes a b rn1 rn2 ha hb hr1 hr2).mp hc)
  have hk1 : dlookup st.parents rn1 = none := hr1.not_key
  have hk2 : dlookup st.parents rn2 = none := hr2.not_key
  have hmval : st.maxNode = 2 * k + pr.length := hInv.maxn
  have hmE : st.maxNode ∉ E := by
    intro hc
    rcases hdis _ hc with h | h <;> omega
  have hmkey : dlookup st.parents st.maxNode = none := by
    rw [dlookup_eq_none_iff_not_mem_dkeys]
    intro hc
    rcases hInv.ksub _ hc with h | h
    · exact hmE h
    · omega
  have hroot_range : ∀ x r, x ∈ E → RootIs st.parents x r →
      r ∈ E ∨ (2 * k ≤ r ∧ r < 2 * k + pr.length) := by
    intro x r hx hr
    rcases hr.eq_or_val with rfl | ⟨z, hz⟩
    · exact Or.inl hx
    · exact Or.inr (hInv.vals z r hz)
  have hr1range := hroot_range a rn1 ha hr1
  have hr2range := hroot_range b rn2 hb hr2
  have hm_ne_rn1 : st.maxNode ≠ rn1 := by
    rcases hr1range with h | h
    · exact fun hc => hmE (hc ▸ h)
    · omega
  have hm_ne_rn2 : st.maxNode ≠ rn2 := by
    rcases hr2range with h | h
    · exact fun hc => hmE (hc ▸ h)
    · omega
  have hp1 : dinsert st.parents rn1 st.maxNode = st.parents ++ [(rn1, st.maxNode)] :=
    dinsert_of_not_mem hk1 _
  have hk2' : dlookup (st.parents ++ [(rn1, st.maxNode)]) rn2 = none := by
    rw [dlookup_append_right _ hk2]
    simp [dlookup, hne]
  have hparents : (ktMerge size st rn1 rn2 a b w).parents =
      st.parents ++ [(rn1, st.maxNode), (rn2, st.maxNode)] := by
    show dinsert (dinsert st.parents rn1 st.maxNode) rn2 st.maxNode = _
    rw [hp1, dinsert_of_not_mem hk2' _, List.append_assoc]
    rfl
  have hmchildkey : dlookup st.children st.maxNode = none := by
    rw [dlookup_eq_none_iff_not_mem_dkeys, hInv.childk]
    intro hc
    rw [List.mem_range'_1] at hc
    omega
  have hchildren : (ktMerge size st rn1 rn2 a b w).children =
      st.children ++ [(st.maxNode, [rn1, rn2])] := by
    show dinsert st.children st.maxNode [rn1, rn2] = _
    exact dinsert_of_not_mem hmchildkey _
  have hmaxn : (ktMerge size st rn1 rn2 a b w).maxNode = st.maxNode + 1 := rfl
  refine ⟨ktMerge size st rn1 rn2 a b w, ?_, ?_⟩
  · simp only [ktStep, hg1, hg2]
  · have hkeys' : dkeys (ktMerge size st rn1 rn2 a b w).parents =
        dkeys st.parents ++ [rn1, rn2] := by
      rw [hparents, dkeys_append]
      rfl
    have hr1mem : rn1 ∉ dkeys st.parents := by
      rw [← dlookup_eq_none_iff_not_mem_dkeys]
      exact hk1
    have hr2mem : rn2 ∉ dkeys st.parents := by
      rw [← dlookup_eq_none_iff_not_mem_dkeys]
      exact hk2
    refine { maxn := ?_, klen := ?_, knodup := ?_, ksub := ?_, vals := ?_,
             childk := ?_, childv := ?_, rank := ?_, classes := ?_ }
    · rw [hmaxn, hmval]
      simp
      omega
    · rw [hparents]
      simp only [List.length_append]
      rw [hInv.klen]
      simp
      omega
    · rw [hkeys']
      rw [List.nodup_append]
      refine ⟨hInv.knodup, by simp [hne], ?_⟩
      intro x hx
      simp only [List.mem_cons, List.not_mem_nil, or_false]
      rintro (rfl | rfl)
      · exact hr1mem hx
      · exact hr2mem hx
    · intro x hx
      rw [hkeys'] at hx
      rcases List.mem_append.mp hx with hx' | hx'
      · rcases hInv.ksub x hx' with h | h
        · exact Or.inl h
        · right
          simp only [List.length_append, List.length_singleton]
          omega
      · simp only [List.mem_cons, List.not_mem_nil, or_false] at hx'
        have hxr : x = rn1 ∨ x = rn2 := hx'
        simp only [List.length_append, List.length_singleton]
        rcases hxr with rfl | rfl
        · rcases hr1range with h | h
          · exact Or.inl h
          · right
            omega
        · rcases hr2range with h | h
          · exact Or.inl h
          · right
            omega
    · intro x mv hmv
      rw [hparents] at hmv
      simp only [List.length_append, List.length_singleton]
      rcases dlookup_append_cases hmv with h | ⟨_, h⟩
      · have := hInv.vals x mv h
        omega
      · have := (dlookup_pair_cases h).2
        omega
    · rw [hchildren, dkeys_append, hInv.childk]
      simp only [List.length_append, List.length_singleton]
      have : List.range' (2 * k) (pr.length + 1) =
          List.range' (2 * k) pr.length ++ [2 * k + pr.length] :=
        List.range'_1_concat (2 * k) pr.length
      rw [this, hmval]
      rfl
    · intro mm cs hcs c hc
      rw [hchildren] at hcs
      rw [hkeys']
      rcases dlookup_append_cases hcs with h | ⟨_, h⟩
      · exact List.mem_append_left _ (hInv.childv mm cs h c hc)
      · have : cs = [rn1, rn2] := by
          simp only [dlookup] at h
          by_cases hmm : st.maxNode = mm
          · rw [if_pos hmm] at h
            exact (Option.some.inj h).symm
          · rw [if_neg hmm] at h
            cases h
        subst this
        exact List.mem_append_right _ hc
    · intro x mv hmv
      rw [hparents] at hmv
      rcases dlookup_append_cases hmv with h | ⟨hxold, h⟩
      · exact hInv.rank x mv h
      · obtain ⟨hxr, rfl⟩ := dlookup_pair_cases h
        have hmrank : ktRank k st.maxNode = 3 * k - st.maxNode := by
          rw [ktRank, if_pos (by omega)]
        have hxrank : ∀ r, r ∈ E ∨ (2 * k ≤ r ∧ r < 2 * k + pr.length) →
            ktRank k st.maxNode < ktRank k r := by
          intro r hr
          rcases hr with h' | h'
          · rcases hdis r h' with h'' | h''
            · rw [hmrank, ktRank, if_neg (by omega)]
              omega
            · rw [hmrank, ktRank, if_neg (by omega)]
              omega
          · rw [hmrank, ktRank, if_pos (by omega)]
            omega
        rcases hxr with rfl | rfl
        · exact hxrank x hr1range
        · exact hxrank x hr2range
    · intro x y rx' ry' hx hy hrx' hry'
      obtain ⟨rx, hrx⟩ := exists_rootIs_of_ranking hInv.rank x
      obtain ⟨ry, hry⟩ := exists_rootIs_of_ranking hInv.rank y
      have hupd : ∀ z rz, RootIs st.parents z rz →
          RootIs (ktMerge size st rn1 rn2 a b w).parents z
            (if rz = rn1 ∨ rz = rn2 then st.maxNode else rz) := by
        intro z rz hz
        rw [hparents]
        exact rootIs_append_update hk1 hk2 hne hm_ne_rn1 hm_ne_rn2 hmkey hz
      have hxeq : rx' = if rx = rn1 ∨ rx = rn2 then st.maxNode else rx :=
        RootIs.uniqueRoot hrx' (hupd x rx hrx)
      have hyeq : ry' = if ry = rn1 ∨ ry = rn2 then st.maxNode else ry :=
        RootIs.uniqueRoot hry' (hupd y ry hry)
      have hrxm : rx ≠ st.maxNode := by
        rcases hroot_range x rx hx hrx with h | h
        · exact fun hc => hmE (hc ▸ h)
        · omega
      have hrym : ry ≠ st.maxNode := by
        rcases hroot_range y ry hy hry with h | h
        · exact fun hc => hmE (hc ▸ h)
        · omega
      have hxa : rx = rn1 ↔ conn pr x a := hInv.classes x a rx rn1 hx ha hrx hr1
      have hxb : rx = rn2 ↔ conn pr x b := hInv.classes x b rx rn2 hx hb hrx hr2
      have hya : ry = rn1 ↔ conn pr y a := hInv.classes y a ry rn1 hy ha hry hr1
      have hyb : ry = rn2 ↔ conn pr y b := hInv.classes y b ry rn2 hy hb hry hr2
      have hxy : rx = ry ↔ conn pr x y := hInv.classes x y rx ry hx hy hrx hry
      rw [hxeq, hyeq, conn_append_iff]
      by_cases hcx : rx = rn1 ∨ rx = rn2
      · rw [if_pos hcx]
        by_cases hcy : ry = rn1 ∨ ry = rn2
        · rw [if_pos hcy]
          constructor
          · intro _
            rcases hcx with hcx | hcx <;> rcases hcy with hcy | hcy
            · exact Or.inl (hxy.mp (hcx.trans hcy.symm))
            · exact Or.inr (Or.inl ⟨hxa.mp hcx, (hyb.mp hcy).symm⟩)
            · exact Or.inr (Or.inr ⟨hxb.mp hcx, (hya.mp hcy).symm⟩)
            · exact Or.inl (hxy.mp (hcx.trans hcy.symm))
          · intro _
            rfl
        · rw [if_neg hcy]
          constructor
          · intro hc
            exact absurd hc.symm hrym
          · rintro (hc | ⟨hc1, hc2⟩ | ⟨hc1, hc2⟩)
            · exact absurd (hxy.mpr hc ▸ hcx) hcy
            · exact absurd (Or.inr (hyb.mpr hc2.symm)) hcy
            · exact absurd (Or.inl (hya.mpr hc2.symm)) hcy
      · rw [if_neg hcx]
        by_cases hcy : ry = rn1 ∨ ry = rn2
        · rw [if_pos hcy]
          constructor
          · intro hc
            exact absurd hc hrxm
          · rintro (hc | ⟨hc1, hc2⟩ | ⟨hc1, hc2⟩)
            · exact absurd ((hxy.mpr hc).symm ▸ hcy) hcx
            · exact absurd (Or.inl (hxa.mpr hc1)) hcx
            · exact absurd (Or.inr (hxb.mpr hc1)) hcx
        · rw [if_neg hcy]
          constructor
          · intro hc
            exact Or.inl (hxy.mp hc)
          · rintro (hc | ⟨hc1, hc2⟩ | ⟨hc1, hc2⟩)
            · exact hxy.mpr hc
            · exact absurd (Or.inl (hxa.mpr hc1)) hcx
            · exact absurd (Or.inr (hxb.mpr hc1)) hcx

theorem ktFold_inv {E : Finset Nat} {k : Nat} {size : Nat → Int}
    (hdis : ∀ v ∈ E, v < 2 * k ∨ 3 * k ≤ v) :
    ∀ (L : List (Edge × Int)) (pr : List Edge) (st : KTState),
      KTInv E k pr st →
      (∀ ew ∈ L, ew.1.1 ∈ E ∧ ew.1.2 ∈ E) →
      pr.length + L.length ≤ k →
      (∀ (j : Nat) (hj : j < L.length),
        ¬ conn (pr ++ (L.map Prod.fst).take j)
          (L.get ⟨j, hj⟩).1.1 (L.get ⟨j, hj⟩).1.2) →
      ∃ st', L.foldlM (ktStep size) st = some st' ∧
        KTInv E k (pr ++ L.map Prod.fst) st' := by
  intro L
  induction L with
  | nil =>
    intro pr st hInv _ _ _
    exact ⟨st, rfl, by simpa using hInv⟩
  | cons ew rest ih =>
    intro pr st hInv hE hlen hgood
    obtain ⟨⟨a, b⟩, w⟩ := ew
    have h0 : ¬ conn pr a b := by
      have := hgood 0 (by simp)
      simpa using this
    have hlt : pr.length < k := by
      simp only [List.length_cons] at hlen
      omega
    obtain ⟨st', hstep, hInv'⟩ :=
      ktStep_inv hInv hdis (hE _ (List.mem_cons_self _ _)).1
        (hE _ (List.mem_cons_self _ _)).2 hlt h0
    have hE' : ∀ ew ∈ rest, ew.1.1 ∈ E ∧ ew.1.2 ∈ E :=
      fun e he => hE e (List.mem_cons_of_mem _ he)
    have hlen' : (pr ++ [(a, b)]).length + rest.length ≤ k := by
      simp at hlen ⊢
      omega
    have hgood' : ∀ (j : Nat) (hj : j < rest.length),
        ¬ conn ((pr ++ [(a, b)]) ++ (rest.map Prod.fst).take j)
          (rest.get ⟨j, hj⟩).1.1 (rest.get ⟨j, hj⟩).1.2 := by
      intro j hj
      have hj' : j + 1 < ((((a, b), w)) :: rest).length := by
        simp
        omega
      have hg := hgood (j + 1) hj'
      have heq1 : (((((a, b), w)) :: rest).map Prod.fst).take (j + 1) =
          (a, b) :: (rest.map Prod.fst).take j := by
        simp
      have heq2 : (((((a, b), w)) :: rest).get ⟨j + 1, hj'⟩) =
          rest.get ⟨j, hj⟩ := rfl
      rw [heq1, heq2] at hg
      rw [List.append_assoc]
      simpa using hg
    obtain ⟨st'', hfold, hInv''⟩ := ih (pr ++ [(a, b)]) st' hInv' hE' hlen' hgood'
    refine ⟨st'', ?_, ?_⟩
    · rw [List.foldlM_cons, hstep]
      simpa using hfold
    · have heq : (pr ++ [(a, b)]) ++ rest.map Prod.fst =
          pr ++ ((((a, b), w)) :: rest).map Prod.fst := by
        rw [List.append_assoc]
        rfl
      rw [← heq]
      exact hInv''

theorem rootIs_nil {x r : Nat} (h : RootIs [] x r) : r = x := by
  obtain ⟨l, hl, hne, hlast⟩ := h
  cases hl with
  | nil _ =>
    rw [← hlast]
    rfl
  | cons hx _ => cases hx

theorem ktInv_init {E : Finset Nat} {k : Nat} :
    KTInv E k [] ⟨[], [], [], [], 2 * k⟩ := by
  refine { maxn := by simp, klen := rfl, knodup := by simp [dkeys],
           ksub := ?_, vals := ?_, childk := rfl, childv := ?_,
           rank := ?_, classes := ?_ }
  · intro x hx
    simp [dkeys] at hx
  · intro x m h
    cases h
  · intro m cs h
    cases h
  · intro x m h
    cases h
  · intro x y rx ry hx hy hrx hry
    rw [rootIs_nil hrx, rootIs_nil hry, conn_nil]

theorem mem_occurNodes {parents : Parenthood} {children : Childhood} {y : Nat} :
    y ∈ occurNodes parents children ↔
      y ∈ dkeys parents ∨ (∃ p ∈ parents, p.2 = y) ∨
        y ∈ dkeys children ∨ ∃ p ∈ children, y ∈ p.2 := by
  rw [occurNodes]
  simp only [Finset.mem_union, List.mem_toFinset, mem_childVals, List.mem_map]
  constructor
  · rintro (((h | ⟨a, ha, rfl⟩) | h) | ⟨p, hp, hyp⟩)
    · exact Or.inl h
    · exact Or.inr (Or.inl ⟨a, ha, rfl⟩)
    · exact Or.inr (Or.inr (Or.inl h))
    · exact Or.inr (Or.inr (Or.inr ⟨p, hp, hyp⟩))
  · rintro (h | ⟨a, ha, rfl⟩ | h | ⟨p, hp, hyp⟩)
    · exact Or.inl (Or.inl (Or.inl h))
    · exact Or.inl (Or.inl (Or.inr ⟨a, ha, rfl⟩))
    · exact Or.inl (Or.inr h)
    · exact Or.inr ⟨p, hp, hyp⟩

/-- C2 counterexample: the connected single-edge graph on leaves `{2, 3}`.
`|k_edges| = 1`, so the synthesized internal id is `2*1 = 2`, colliding with
leaf 2: the builder sets `parents[2] = 2` and the resulting structure has
no rootless node at all (zero, not one). -/
theorem claim_C2_counterexample :
    endPts [(2, 3)] = {2, 3} ∧
    conn [(2, 3)] 2 3 ∧
    kruskal_tree [(2, 3)] (fun _ => 1) (fun _ => 1) =
      some ([(2, 2), (3, 2)], [(2, [2, 3])], [(2, 1)], [(2, 2), (3, 1)]) ∧
    (occurNodes [(2, 2), (3, 2)] [(2, [2, 3])]).filter
      (fun n => dlookup [(2, 2), (3, 2)] n = none) = ∅ ∧
    ¬ ∃! root, root ∈ occurNodes [(2, 2), (3, 2)] [(2, [2, 3])] ∧
        dlookup [(2, 2), (3, 2)] root = none := by
  refine ⟨by decide, conn.base (Or.inl (by simp)), rfl, by decide, ?_⟩
  rintro ⟨root, ⟨hmem, hnone⟩, _⟩
  have : ∀ n ∈ occurNodes [(2, 2), (3, 2)] [(2, [2, 3])],
      dlookup [(2, 2), (3, 2)] n ≠ none := by decide
  exact this root hmem hnone

/-- C2 amended: for every connected weighted graph with well-formed edges
(distinct endpoints) whose leaf ids avoid the synthesized internal-id range
`[2*|k_edges|, 3*|k_edges|)`, `kruskal_tree` produces exactly `|k_edges|`
internal nodes, `|k_edges|` equals the number of leaves minus one, and
exactly one node occurring in the resulting structure has no entry in
`parents` (a single root). -/
theorem claim_C2 (edges : List Edge) (weights : Edge → Int) (size : Nat → Int)
    (hne : edges ≠ [])
    (hsimple : ∀ e ∈ edges, e.1 ≠ e.2)
    (hconn : ∀ u ∈ endPts edges, ∀ v ∈ endPts edges, conn edges u v)
    (hdis : ∀ v ∈ endPts edges,
      v < 2 * (kruskal_edges edges weights).1.length ∨
        3 * (kruskal_edges edges weights).1.length ≤ v) :
    ∃ parentsR childrenR weightsR sizesR,
      kruskal_tree edges weights size =
        some (parentsR, childrenR, weightsR, sizesR) ∧
      childrenR.length = (kruskal_edges edges weights).1.length ∧
      (kruskal_edges edges weights).1.length + 1 = (endPts edges).card ∧
      ∃! root, root ∈ occurNodes parentsR childrenR ∧
        dlookup parentsR root = none := by
  obtain ⟨uf, hKE⟩ := kruskal_edges_spec edges weights
  -- abbreviations
  have hkedef : (kruskal_edges edges weights).1 = (kruskal_edges edges weights).1 := rfl
  -- the number of retained edges
  -- (ii) |k_edges| + 1 = number of leaves
  obtain ⟨e0, rest0, hedges0⟩ :
      ∃ e0 rest, edges = e0 :: rest := by
    cases edges with
    | nil => exact absurd rfl hne
    | cons e0 rest => exact ⟨e0, rest, rfl⟩
  have he01 : e0.1 ∈ endPts edges := mem_endPts.mpr ⟨e0, by rw [hedges0]; simp, Or.inl rfl⟩
  have he02 : e0.2 ∈ endPts edges := mem_endPts.mpr ⟨e0, by rw [hedges0]; simp, Or.inr rfl⟩
  have hEconn : ∀ u ∈ endPts edges, ∀ v ∈ endPts edges,
      conn (edges.insertionSort (fun a b => weights a ≤ weights b)) u v := by
    intro u hu v hv
    exact conn_insertionSort_iff.mpr (hconn u hu v hv)
  have himg1 : ((endPts edges).image uf).card = 1 := by
    rw [Finset.card_eq_one]
    refine ⟨uf e0.1, ?_⟩
    ext z
    simp only [Finset.mem_image, Finset.mem_singleton]
    constructor
    · rintro ⟨v, hv, rfl⟩
      exact (hKE.classes v e0.1).mpr (hEconn v hv e0.1 he01)
    · rintro rfl
      exact ⟨e0.1, he01, rfl⟩
  have hcount : (kruskal_edges edges weights).1.length + 1 = (endPts edges).card := by
    have := hKE.count
    omega
  have hk1 : 1 ≤ (kruskal_edges edges weights).1.length := by
    have hcard2 : 1 < (endPts edges).card :=
      Finset.one_lt_card.mpr ⟨e0.1, he01, e0.2, he02, hsimple e0 (by rw [hedges0]; simp)⟩
    omega
  -- run the tree-building fold
  have hLfst : ((kruskal_edges edges weights).1.zip
      (kruskal_edges edges weights).2).map Prod.fst =
      (kruskal_edges edges weights).1 :=
    List.map_fst_zip _ _ (le_of_eq hKE.kwlen.symm)
  have hlenL : ((kruskal_edges edges weights).1.zip
      (kruskal_edges edges weights).2).length =
      (kruskal_edges edges weights).1.length := by
    rw [List.length_zip, hKE.kwlen]
    exact Nat.min_self _
  have hkesub : ∀ e ∈ (kruskal_edges edges weights).1, e ∈ edges := by
    intro e he
    exact (List.perm_insertionSort _ edges).mem_iff.mp (hKE.sub e he)
  have hEL : ∀ ew ∈ (kruskal_edges edges weights).1.zip
      (kruskal_edges edges weights).2,
      ew.1.1 ∈ endPts edges ∧ ew.1.2 ∈ endPts edges := by
    intro ew hew
    have h1 : ew.1 ∈ (kruskal_edges edges weights).1 := (List.of_mem_zip hew).1
    have h2 := hkesub ew.1 h1
    exact ⟨mem_endPts.mpr ⟨ew.1, h2, Or.inl rfl⟩,
      mem_endPts.mpr ⟨ew.1, h2, Or.inr rfl⟩⟩
  have hgood0 : ∀ (j : Nat)
      (hj : j < ((kruskal_edges edges weights).1.zip
        (kruskal_edges edges weights).2).length),
      ¬ conn ([] ++ (((kruskal_edges edges weights).1.zip
          (kruskal_edges edges weights).2).map Prod.fst).take j)
        ((((kruskal_edges edges weights).1.zip
          (kruskal_edges edges weights).2).get ⟨j, hj⟩).1.1)
        ((((kruskal_edges edges weights).1.zip
          (kruskal_edges edges weights).2).get ⟨j, hj⟩).1.2) := by
    intro j hj
    have hjk : j < (kruskal_edges edges weights).1.length := by
      rw [hlenL] at hj
      exact hj
    have hget : (((kruskal_edges edges weights).1.zip
        (kruskal_edges edges weights).2).get ⟨j, hj⟩).1 =
        (kruskal_edges edges weights).1.get ⟨j, hjk⟩ := by
      rw [List.get_eq_getElem, List.get_eq_getElem, List.getElem_zip]
    rw [hLfst, hget]
    simpa using hKE.good j hjk
  obtain ⟨st', hfold, hKT⟩ := @ktFold_inv
    (endPts edges) ((kruskal_edges edges weights).1.length)
    size hdis
    ((kruskal_edges edges weights).1.zip (kruskal_edges edges weights).2) []
    ⟨[], [], [], [], 2 * (kruskal_edges edges weights).1.length⟩
    ktInv_init hEL (by rw [hlenL]; simp) hgood0
  rw [hLfst] at hKT
  have hKT' : KTInv (endPts edges) (kruskal_edges edges weights).1.length
      (kruskal_edges edges weights).1 st' := by
    simpa using hKT
  refine ⟨st'.parents, st'.children, st'.weights, st'.sizes, ?_, ?_, hcount, ?_⟩
  · rw [kruskal_tree]
    rw [hfold]
    rfl
  · have h1 : (dkeys st'.children).length = st'.children.length := by
      rw [dkeys, List.length_map]
    have h2 := hKT'.childk
    have h3 : (List.range' (2 * (kruskal_edges edges weights).1.length)
        (kruskal_edges edges weights).1.length).length =
        (kruskal_edges edges weights).1.length := List.length_range' _ _ _
    rw [h2, h3] at h1
    exact h1.symm
  · -- the single root
    set k := (kruskal_edges edges weights).1.length with hkdef
    have hkeyeq : (dkeys st'.parents).toFinset =
        endPts edges ∪ (List.range' (2 * k) (k - 1)).toFinset := by
      apply Finset.eq_of_subset_of_card_le
      · intro x hx
        rw [List.mem_toFinset] at hx
        rcases hKT'.ksub x hx with h | h
        · exact Finset.mem_union_left _ h
        · refine Finset.mem_union_right _ ?_
          rw [List.mem_toFinset, List.mem_range'_1]
          omega
      · have hdisj : Disjoint (endPts edges)
            (List.range' (2 * k) (k - 1)).toFinset := by
          rw [Finset.disjoint_left]
          intro x hxE hxR
          rw [List.mem_toFinset, List.mem_range'_1] at hxR
          rcases hdis x hxE with h | h <;> omega
        rw [Finset.card_union_of_disjoint hdisj]
        have hc1 : (endPts edges).card = k + 1 := hcount.symm
        have hc2 : (List.range' (2 * k) (k - 1)).toFinset.card = k - 1 := by
          rw [List.toFinset_card_of_nodup (List.nodup_range' _ _),
            List.length_range']
        have hc3 : (dkeys st'.parents).toFinset.card = 2 * k := by
          rw [List.toFinset_card_of_nodup hKT'.knodup]
          have : (dkeys st'.parents).length = st'.parents.length := by
            rw [dkeys, List.length_map]
          rw [this, hKT'.klen]
        omega
    have hrootOccur : 2 * k + (k - 1) ∈ occurNodes st'.parents st'.children := by
      rw [mem_occurNodes]
      right; right; left
      rw [hKT'.childk, List.mem_range'_1]
      omega
    have hnotkey : ∀ y, y ∈ endPts edges ∨
        (2 * k ≤ y ∧ y < 2 * k + (k - 1)) → y ∈ dkeys st'.parents := by
      intro y hy
      rw [← List.mem_toFinset, hkeyeq]
      rcases hy with h | h
      · exact Finset.mem_union_left _ h
      · refine Finset.mem_union_right _ ?_
        rw [List.mem_toFinset, List.mem_range'_1]
        omega
    have hrootNone : dlookup st'.parents (2 * k + (k - 1)) = none := by
      rw [dlookup_eq_none_iff_not_mem_dkeys]
      intro hc
      rw [← List.mem_toFinset, hkeyeq] at hc
      rcases Finset.mem_union.mp hc with h | h
      · rcases hdis _ h with h' | h' <;> omega
      · rw [List.mem_toFinset, List.mem_range'_1] at h
        omega
    refine ⟨2 * k + (k - 1), ⟨hrootOccur, hrootNone⟩, ?_⟩
    intro y ⟨hyocc, hynone⟩
    have hykey : y ∉ dkeys st'.parents := by
      rw [← dlookup_eq_none_iff_not_mem_dkeys]
      exact hynone
    have hchildnodup : (dkeys st'.children).Nodup := by
      rw [hKT'.childk]
      exact List.nodup_range' _ _
    have hinternal : 2 * k ≤ y ∧ y < 3 * k → y = 2 * k + (k - 1) := by
      intro hyr
      by_contra hne'
      exact hykey (hnotkey y (Or.inr (by omega)))
    rcases mem_occurNodes.mp hyocc with h | h | h | h
    · exact absurd h hykey
    · obtain ⟨p, hp, hpy⟩ := h
      have hlook : dlookup st'.parents p.1 = some p.2 :=
        dlookup_of_mem_nodup hKT'.knodup (by
          rw [show (p.1, p.2) = p from rfl]
          exact hp)
      have := hKT'.vals p.1 p.2 hlook
      rw [hpy] at this
      exact hinternal (by omega)
    · rw [hKT'.childk, List.mem_range'_1] at h
      exact hinternal (by omega)
    · obtain ⟨p, hp, hyp⟩ := h
      have hlook : dlookup st'.children p.1 = some p.2 :=
        dlookup_of_mem_nodup hchildnodup (by
          rw [show (p.1, p.2) = p from rfl]
          exact hp)
      exact absurd (hKT'.childv p.1 p.2 hlook y hyp) hykey

theorem claim_C2_witness :
    ∃ parentsR childrenR weightsR sizesR,
      kruskal_tree [(0, 1)] (fun _ => (1 : Int)) (fun _ => (1 : Int)) =
        some (parentsR, childrenR, weightsR, sizesR) ∧
      childrenR.length = (kruskal_edges [(0, 1)] (fun _ => (1 : Int))).1.length ∧
      (kruskal_edges [(0, 1)] (fun _ => (1 : Int))).1.length + 1 =
        (endPts [(0, 1)]).card ∧
      ∃! root, root ∈ occurNodes parentsR childrenR ∧
        dlookup parentsR root = none :=
  claim_C2 [(0, 1)] (fun _ => (1 : Int)) (fun _ => (1 : Int))
    (by simp)
    (by decide)
    (by
      intro u hu v hv
      have hu' : u = 0 ∨ u = 1 := by
        have := mem_endPts.mp hu
        simpa using this
      have hv' : v = 0 ∨ v = 1 := by
        have := mem_endPts.mp hv
        simpa using this
      have h01 : conn [(0, 1)] 0 1 := conn.base (Or.inl (by simp))
      rcases hu' with rfl | rfl <;> rcases hv' with rfl | rfl
      · exact conn.refl 0
      · exact h01
      · exact h01.symm
      · exact conn.refl 1)
    (by
      intro v hv
      have h1 : (kruskal_edges [(0, 1)] (fun _ => (1 : Int))).1.length = 1 := rfl
      rw [h1]
      have hv' : v = 0 ∨ v = 1 := by
        have := mem_endPts.mp hv
        simpa using this
      omega)
